import Mathlib

/-!
Verification development for the upoko audiobook chapter-splitting pipeline.

Shallow embedding of:
* `src/core/processors/chapterValidator.ts` (validateChapterSequence,
  validateChapterTiming, normalizeChapterTitles, detectChapterGaps,
  sortChaptersByStartTime, validateChapters)
* `src/core/services/fileService.ts` (sanitizeFilename)
* `src/core/processors/audioSplitter.ts` (splitAudioByChapters,
  processChapterSplit, prepareSplitOperation, generateChapterFileName)

Modelling conventions:
* JS strings are `List Char`; JS numbers holding millisecond offsets are `Int`.
* The JS stable `Array.prototype.sort` with a consistent comparator is modelled
  by a stable insertion sort (`sortLe`), which is extensionally the unique
  stable sort for the comparator's key order.
* Error and warning strings pushed by the source are modelled as inductive
  values carrying exactly the data interpolated into the message text.
* `Math.round(x / d)` on integer inputs is modelled by exact rational
  round-half-up `(2*x + d).fdiv (2*d)`; the float coverage-percentage
  comparison `(a / b) * 100 < 90` is modelled by the exact comparison
  `a * 10 < 9 * b`.  No claim inspects these values at a point where the
  float and exact results could differ.
* I/O is modelled by environments supplying each external call's outcome and
  by explicit lists of filesystem write effects.
-/

namespace Upoko

/-! ### Character and string helpers (JS regex semantics) -/

/-- The characters removed by `replace(/[<>:"\/\\|?*]/g, '')`. -/
def forbiddenChar (c : Char) : Bool :=
  c == '<' || c == '>' || c == ':' || c == '"' || c == '/' || c == '\\' ||
  c == '|' || c == '?' || c == '*'

/-- The characters removed by `replace(/[\x00-\x1f\x80-\x9f]/g, '')`. -/
def controlChar (c : Char) : Bool :=
  c.toNat ≤ 0x1f || (0x80 ≤ c.toNat && c.toNat ≤ 0x9f)

/-- ECMAScript `\s`: WhiteSpace ∪ LineTerminator. -/
def jsWhitespace (c : Char) : Bool :=
  c == ' ' || c == '\t' || c == '\n' || c == '\x0b' || c == '\x0c' ||
  c == '\r' || c.toNat == 0xa0 || c.toNat == 0x1680 ||
  (0x2000 ≤ c.toNat && c.toNat ≤ 0x200a) ||
  c.toNat == 0x2028 || c.toNat == 0x2029 || c.toNat == 0x202f ||
  c.toNat == 0x205f || c.toNat == 0x3000 || c.toNat == 0xfeff

/-- Helper for `replace(/\s+/g, ' ')`: the flag records whether the previous
character was whitespace (in which case further whitespace is dropped). -/
def collapseWsAux : Bool → List Char → List Char
  | _, [] => []
  | prevWs, c :: rest =>
    if jsWhitespace c then
      if prevWs then collapseWsAux true rest
      else ' ' :: collapseWsAux true rest
    else c :: collapseWsAux false rest

/-- `replace(/\s+/g, ' ')`: each maximal whitespace run becomes one space. -/
def collapseWs (s : List Char) : List Char := collapseWsAux false s

/-- Drop the longest suffix whose characters satisfy `p`. -/
def dropTrailing (p : Char → Bool) (s : List Char) : List Char :=
  (s.reverse.dropWhile p).reverse

/-- JS `String.prototype.trim`. -/
def trimJs (s : List Char) : List Char :=
  dropTrailing jsWhitespace (s.dropWhile jsWhitespace)

/-- The character class `[.\s]` (also written `[\s.]` in the source). -/
def dotOrWs (c : Char) : Bool := c == '.' || jsWhitespace c

/-- `replace(/^[.\s]+|[.\s]+$/g, '')`. -/
def stripEdgeDots (s : List Char) : List Char :=
  dropTrailing dotOrWs (s.dropWhile dotOrWs)

/-- `replace(/[\s.]+$/, '')`. -/
def stripTrailDots (s : List Char) : List Char :=
  dropTrailing dotOrWs s

/-- ASCII upper-casing, the canonicalisation used by a non-unicode
case-insensitive regex on the ASCII reserved names. -/
def asciiUpper (c : Char) : Char :=
  if 'a' ≤ c && c ≤ 'z' then Char.ofNat (c.toNat - 32) else c

/-- The reserved Windows device names of `/^(CON|PRN|AUX|NUL|COM[1-9]|LPT[1-9])$/i`. -/
def reservedNames : List (List Char) :=
  ["CON".data, "PRN".data, "AUX".data, "NUL".data,
   "COM1".data, "COM2".data, "COM3".data, "COM4".data, "COM5".data,
   "COM6".data, "COM7".data, "COM8".data, "COM9".data,
   "LPT1".data, "LPT2".data, "LPT3".data, "LPT4".data, "LPT5".data,
   "LPT6".data, "LPT7".data, "LPT8".data, "LPT9".data]

/-- `reservedNames.test(s)` for the case-insensitive anchored regex. -/
def reservedTest (s : List Char) : Bool :=
  reservedNames.contains (s.map asciiUpper)

/-- Decimal digit character. -/
def digitChar (n : Nat) : Char := Char.ofNat (48 + n % 10)

/-- Structural helper for `natChars`: the fuel bounds the recursion depth and
is always sufficient (dividing by 10 decreases a positive number). -/
def natCharsAux : Nat → Nat → List Char
  | 0, _ => []
  | fuel + 1, n =>
    if n < 10 then [digitChar n]
    else natCharsAux fuel (n / 10) ++ [digitChar (n % 10)]

/-- Decimal representation of a natural number, as produced by JS template
interpolation of a (non-negative integer) number. -/
def natChars (n : Nat) : List Char := natCharsAux (n + 1) n

/-- `String.prototype.padStart(3, '0')`. -/
def padThree (s : List Char) : List Char :=
  List.replicate (3 - s.length) '0' ++ s

/-- `Math.round(x / d)` for integer `x` and positive integer `d`, computed
exactly as round-half-up on the rational quotient. -/
def jsRoundDiv (x d : Int) : Int := (2 * x + d).fdiv (2 * d)

/-! ### Data model (`src/core/models/types.ts`) -/

/-- `ChapterInfo` from `types.ts`. -/
structure ChapterInfo where
  title : List Char
  lengthMs : Int
  startOffsetMs : Int
deriving DecidableEq, Repr

instance : Inhabited ChapterInfo := ⟨⟨[], 0, 0⟩⟩

/-- Errors pushed into `ValidationResult.errors`, one constructor per push
site, carrying the data interpolated into the message string.  `num` is the
1-based chapter number that appears in the message. -/
inductive VError
  | noChaptersValidation
  | noChaptersTiming
  | negativeStart (num : Nat) (title : List Char) (startMs : Int)
  | nonPositiveLength (num : Nat) (title : List Char) (lenMs : Int)
  | nonPositiveDuration (num : Nat) (title : List Char) (lenMs : Int)
  | overlap (num : Nat) (t1 t2 : List Char) (overlapMs : Int)
  | extendsBeyond (excessMs totalMs : Int)
deriving DecidableEq, Repr

/-- Warnings pushed into `ValidationResult.warnings`, one constructor per push
site. -/
inductive WMsg
  | notChronological
  | veryShort (num : Nat) (title : List Char) (secs : Int)
  | veryLong (num : Nat) (title : List Char) (hours : Int)
  | coverage (lastEndMs totalMs : Int)
  | gap (secs : Int) (t1 t2 : List Char)
  | totalGapsSignificant (secs : Int) (count : Nat)
deriving DecidableEq, Repr

/-- `ValidationResult` from `types.ts`. -/
structure ValidationResult where
  isValid : Bool
  errors : List VError
  warnings : List WMsg
deriving DecidableEq, Repr

/-- `ChapterGap` from `types.ts`; the `description` string is modelled by its
interpolated data (`descSecs`, `descFrom`, `descTo`). -/
structure ChapterGap where
  chapterIndex : Nat
  gapStartMs : Int
  gapEndMs : Int
  gapDurationMs : Int
  descSecs : Int
  descFrom : List Char
  descTo : List Char
deriving DecidableEq, Repr

/-- `GapDetectionResult` from `types.ts`. -/
structure GapDetectionResult where
  hasGaps : Bool
  gaps : List ChapterGap
  totalGapDurationMs : Int
deriving DecidableEq, Repr

/-! ### Stable sorting (`Array.prototype.sort` with a consistent comparator) -/

/-- Insert `a` into `l` before the first element `b` with `le a b = true`. -/
def insertLe (le : ChapterInfo → ChapterInfo → Bool) (a : ChapterInfo) :
    List ChapterInfo → List ChapterInfo
  | [] => [a]
  | b :: l => if le a b then a :: b :: l else b :: insertLe le a l

/-- Stable insertion sort: extensionally equal to the JS stable sort for a
comparator whose order `le` is total and transitive. -/
def sortLe (le : ChapterInfo → ChapterInfo → Bool) :
    List ChapterInfo → List ChapterInfo
  | [] => []
  | a :: l => insertLe le a (sortLe le l)

/-- The comparator `(a, b) => a.startOffsetMs - b.startOffsetMs`. -/
def startLe (a b : ChapterInfo) : Bool := a.startOffsetMs ≤ b.startOffsetMs

/-- `[...chapters].sort((a, b) => a.startOffsetMs - b.startOffsetMs)`, the
sorted copy used by the validators. -/
def sortByStart (chapters : List ChapterInfo) : List ChapterInfo :=
  sortLe startLe chapters

/-- The two-key comparator of `sortChaptersByStartTime`: primary start time,
secondary length. -/
def startThenLengthLe (a b : ChapterInfo) : Bool :=
  a.startOffsetMs < b.startOffsetMs ||
  (a.startOffsetMs == b.startOffsetMs && a.lengthMs ≤ b.lengthMs)

/-- `sortChaptersByStartTime` from `chapterValidator.ts`. -/
def sortChaptersByStartTime (chapters : List ChapterInfo) : List ChapterInfo :=
  if chapters.isEmpty then []
  else sortLe startThenLengthLe chapters

/-! ### `validateChapterSequence` (`chapterValidator.ts` lines 8–65) -/

/-- Specification view of one iteration of the validation loop: the errors
pushed for index `i` of the sorted list. -/
def seqErrsAt (sorted : List ChapterInfo) (i : Nat) : List VError :=
  let c := sorted.getD i default
  (if c.startOffsetMs < 0 then [.negativeStart (i + 1) c.title c.startOffsetMs] else []) ++
  (if c.lengthMs ≤ 0 then [.nonPositiveLength (i + 1) c.title c.lengthMs] else []) ++
  (if i + 1 < sorted.length then
    let nc := sorted.getD (i + 1) default
    if c.startOffsetMs + c.lengthMs > nc.startOffsetMs then
      [.overlap (i + 1) c.title nc.title (c.startOffsetMs + c.lengthMs - nc.startOffsetMs)]
    else []
  else [])

/-- One iteration of the `for` loop of `validateChapterSequence`, mirroring the
mutations of `result`. -/
def seqStep (sorted : List ChapterInfo) (r : ValidationResult) (i : Nat) :
    ValidationResult :=
  let c := sorted.getD i default
  let r1 :=
    if c.startOffsetMs < 0 then
      { r with isValid := false,
               errors := r.errors ++ [.negativeStart (i + 1) c.title c.startOffsetMs] }
    else r
  let r2 :=
    if c.lengthMs ≤ 0 then
      { r1 with isValid := false,
                errors := r1.errors ++ [.nonPositiveLength (i + 1) c.title c.lengthMs] }
    else r1
  if i + 1 < sorted.length then
    let nc := sorted.getD (i + 1) default
    if c.startOffsetMs + c.lengthMs > nc.startOffsetMs then
      { r2 with isValid := false,
                errors := r2.errors ++
                  [.overlap (i + 1) c.title nc.title
                    (c.startOffsetMs + c.lengthMs - nc.startOffsetMs)] }
    else r2
  else r2

/-- The loop that warns when the original order differs from the sorted order
(compared, as in the source, by `startOffsetMs`). -/
def notChronoWarn (chapters sorted : List ChapterInfo) : Bool :=
  (chapters.zip sorted).any (fun p => p.1.startOffsetMs != p.2.startOffsetMs)

/-- `validateChapterSequence` from `chapterValidator.ts`. -/
def validateChapterSequence (chapters : List ChapterInfo) : ValidationResult :=
  if chapters.isEmpty then ⟨false, [.noChaptersValidation], []⟩
  else
    let sorted := sortByStart chapters
    let r0 : ValidationResult :=
      ⟨true, [], if notChronoWarn chapters sorted then [.notChronological] else []⟩
    (List.range sorted.length).foldl (seqStep sorted) r0

/-! ### `validateChapterTiming` (`chapterValidator.ts` lines 73–144) -/

/-- Errors pushed for index `i` of one iteration of the timing loop. -/
def timingErrsAt (sorted : List ChapterInfo) (i : Nat) : List VError :=
  let c := sorted.getD i default
  (if c.startOffsetMs < 0 then [.negativeStart (i + 1) c.title c.startOffsetMs] else []) ++
  (if c.lengthMs ≤ 0 then [.nonPositiveDuration (i + 1) c.title c.lengthMs] else [])

/-- Warnings pushed for index `i` of one iteration of the timing loop. -/
def timingWarnsAt (sorted : List ChapterInfo) (i : Nat) : List WMsg :=
  let c := sorted.getD i default
  (if c.lengthMs > 0 ∧ c.lengthMs < 30000 then
    [.veryShort (i + 1) c.title (jsRoundDiv c.lengthMs 1000)] else []) ++
  (if c.lengthMs > 14400000 then
    [.veryLong (i + 1) c.title (jsRoundDiv c.lengthMs 3600000)] else [])

/-- One iteration of the timing loop; the state also carries `lastChapterEnd`.
(The source additionally accumulates `totalChapterDuration`, which it never
reads; the model omits that dead accumulator.) -/
def timingStep (sorted : List ChapterInfo) (st : ValidationResult × Int) (i : Nat) :
    ValidationResult × Int :=
  let c := sorted.getD i default
  let r := st.1
  let r1 :=
    if c.startOffsetMs < 0 then
      { r with isValid := false,
               errors := r.errors ++ [.negativeStart (i + 1) c.title c.startOffsetMs] }
    else r
  let r2 :=
    if c.lengthMs ≤ 0 then
      { r1 with isValid := false,
                errors := r1.errors ++ [.nonPositiveDuration (i + 1) c.title c.lengthMs] }
    else r1
  let r3 :=
    if c.lengthMs > 0 ∧ c.lengthMs < 30000 then
      { r2 with warnings := r2.warnings ++ [.veryShort (i + 1) c.title (jsRoundDiv c.lengthMs 1000)] }
    else r2
  let r4 :=
    if c.lengthMs > 14400000 then
      { r3 with warnings := r3.warnings ++ [.veryLong (i + 1) c.title (jsRoundDiv c.lengthMs 3600000)] }
    else r3
  let chapterEnd := c.startOffsetMs + c.lengthMs
  (r4, if chapterEnd > st.2 then chapterEnd else st.2)

/-- `validateChapterTiming` from `chapterValidator.ts`.  The float comparison
`(lastChapterEnd / totalDurationMs) * 100 < 90` is modelled exactly as
`lastEnd * 10 < 9 * total`. -/
def validateChapterTiming (chapters : List ChapterInfo)
    (totalDurationMs : Option Int) : ValidationResult :=
  if chapters.isEmpty then ⟨false, [.noChaptersTiming], []⟩
  else
    let sorted := sortByStart chapters
    let st := (List.range sorted.length).foldl (timingStep sorted) (⟨true, [], []⟩, 0)
    let r := st.1
    let lastEnd := st.2
    match totalDurationMs with
    | none => r
    | some total =>
      let r1 :=
        if lastEnd > total then
          { r with isValid := false,
                   errors := r.errors ++ [.extendsBeyond (lastEnd - total) total] }
        else r
      if lastEnd * 10 < 9 * total then
        { r1 with warnings := r1.warnings ++ [.coverage lastEnd total] }
      else r1

/-! ### `normalizeChapterTitles` (`chapterValidator.ts` lines 151–188) -/

/-- Lines 156–159: remove forbidden characters, normalise whitespace, trim. -/
def cleanedTitle (title : List Char) : List Char :=
  trimJs (collapseWs (title.filter (fun c => !forbiddenChar c)))

/-- The synthetic title `Chapter ${index + 1}` substituted for empty results. -/
def chapterN (index : Nat) : List Char := "Chapter ".data ++ natChars (index + 1)

/-- Lines 162–164: substitute the synthetic title when the cleaned result is
empty. -/
def titledOrSynthetic (index : Nat) (t1 : List Char) : List Char :=
  if t1.isEmpty then chapterN index else t1

/-- Lines 167–169: truncate to 197 characters and append an ellipsis when the
title exceeds 200 characters. -/
def truncated (t2 : List Char) : List Char :=
  if t2.length > 200 then t2.take 197 ++ "...".data else t2

/-- Lines 172 and 175: strip leading/trailing dots and whitespace, then strip
the trailing run once more. -/
def strippedTitle (t3 : List Char) : List Char :=
  stripTrailDots (stripEdgeDots t3)

/-- The per-chapter body of `normalizeChapterTitles` (lines 152–186), for the
chapter at 0-based `index`: the successive reassignments of `normalizedTitle`
are the named stages above, followed by the reserved-name suffixing. -/
def normalizeTitle (index : Nat) (title : List Char) : List Char :=
  let t5 := strippedTitle (truncated (titledOrSynthetic index (cleanedTitle title)))
  if reservedTest t5 then t5 ++ "_chapter".data else t5

/-- `normalizeChapterTitles` from `chapterValidator.ts`. -/
def normalizeChapterTitles (chapters : List ChapterInfo) : List ChapterInfo :=
  chapters.mapIdx (fun index c => { c with title := normalizeTitle index c.title })

/-! ### `detectChapterGaps` (`chapterValidator.ts` lines 195–235) -/

/-- The gap (if any) recorded for adjacent sorted pair `(i, i+1)`. -/
def gapAt (sorted : List ChapterInfo) (i : Nat) : List ChapterGap :=
  let c := sorted.getD i default
  let nc := sorted.getD (i + 1) default
  let currentEnd := c.startOffsetMs + c.lengthMs
  let nextStart := nc.startOffsetMs
  if nextStart > currentEnd + 1000 then
    [⟨i, currentEnd, nextStart, nextStart - currentEnd,
      jsRoundDiv (nextStart - currentEnd) 1000, c.title, nc.title⟩]
  else []

/-- One iteration of the gap-detection loop. -/
def gapStep (sorted : List ChapterInfo) (st : GapDetectionResult) (i : Nat) :
    GapDetectionResult :=
  let c := sorted.getD i default
  let nc := sorted.getD (i + 1) default
  let currentEnd := c.startOffsetMs + c.lengthMs
  let nextStart := nc.startOffsetMs
  if nextStart > currentEnd + 1000 then
    { hasGaps := true,
      gaps := st.gaps ++
        [⟨i, currentEnd, nextStart, nextStart - currentEnd,
          jsRoundDiv (nextStart - currentEnd) 1000, c.title, nc.title⟩],
      totalGapDurationMs := st.totalGapDurationMs + (nextStart - currentEnd) }
  else st

/-- `detectChapterGaps` from `chapterValidator.ts`. -/
def detectChapterGaps (chapters : List ChapterInfo) : GapDetectionResult :=
  if chapters.length ≤ 1 then ⟨false, [], 0⟩
  else
    let sorted := sortByStart chapters
    (List.range (sorted.length - 1)).foldl (gapStep sorted) ⟨false, [], 0⟩

/-! ### `validateChapters` (`chapterValidator.ts` lines 264–289) -/

/-- The warning built from `gap.description`. -/
def gapWarning (g : ChapterGap) : WMsg := .gap g.descSecs g.descFrom g.descTo

/-- `validateChapters` from `chapterValidator.ts`. -/
def validateChapters (chapters : List ChapterInfo)
    (totalDurationMs : Option Int) : ValidationResult :=
  let sequenceResult := validateChapterSequence chapters
  let timingResult := validateChapterTiming chapters totalDurationMs
  let gapResult := detectChapterGaps chapters
  let combined : ValidationResult :=
    ⟨sequenceResult.isValid && timingResult.isValid,
     sequenceResult.errors ++ timingResult.errors,
     sequenceResult.warnings ++ timingResult.warnings⟩
  if gapResult.hasGaps then
    let w1 := combined.warnings ++ gapResult.gaps.map gapWarning
    let w2 :=
      if gapResult.totalGapDurationMs > 10000 then
        w1 ++ [.totalGapsSignificant (jsRoundDiv gapResult.totalGapDurationMs 1000)
                 gapResult.gaps.length]
      else w1
    { combined with warnings := w2 }
  else combined

/-! ### `sanitizeFilename` (`fileService.ts` lines 132–176) -/

/-- `replace(/\.[^.]*$/, '')`: remove the final dot and everything after it,
when a dot exists. -/
def stripLastExt (s : List Char) : List Char :=
  if s.contains '.' then ((s.reverse.dropWhile (fun c => c != '.')).drop 1).reverse
  else s

/-- `String.prototype.lastIndexOf('.')`, as an `Option`. -/
def lastIndexOfDot (s : List Char) : Option Nat :=
  ((List.range s.length).filter (fun i => s.getD i ' ' == '.')).getLast?

/-- The base-name/extension split of `sanitizeFilename`: split at the last dot
when it is neither the first nor the last character. -/
def splitExt (s : List Char) : List Char × List Char :=
  match lastIndexOfDot s with
  | some li => if 0 < li ∧ li < s.length - 1 then (s.take li, s.drop li) else (s, [])
  | none => (s, [])

/-- Lines 136–140 of `sanitizeFilename`: remove forbidden and control
characters, collapse whitespace, trim. -/
def cleanedFilename (filename : List Char) : List Char :=
  trimJs (collapseWs
    ((filename.filter (fun c => !forbiddenChar c)).filter (fun c => !controlChar c)))

/-- Lines 143–146: suffix `_file` when the name without its extension is a
reserved device name. -/
def reservedSuffixed (s1 : List Char) : List Char :=
  if reservedTest (stripLastExt s1) then s1 ++ "_file".data else s1

/-- Lines 133–157 of `sanitizeFilename`: the cleaned name before the
base/extension split (character removal, whitespace collapse, trim, reserved
basename suffixing, edge stripping, and the `unnamed` fallback). -/
def presanitized (filename : List Char) : List Char :=
  let s3 := stripTrailDots (stripEdgeDots (reservedSuffixed (cleanedFilename filename)))
  if s3.isEmpty then "unnamed".data else s3

/-- `sanitizeFilename` from `fileService.ts`.  `substring(0, e)` with a
possibly negative `e` clamps to the empty string, which `Int.toNat` models. -/
def sanitizeFilename (filename : List Char) (maxLength : Nat) : List Char :=
  let s4 := presanitized filename
  let pair := splitExt s4
  let baseName := pair.1
  let extension := pair.2
  let maxBaseLength : Int := (maxLength : Int) - extension.length - 10
  let baseName2 :=
    if (baseName.length : Int) > maxBaseLength then trimJs (baseName.take maxBaseLength.toNat)
    else baseName
  baseName2 ++ extension

/-! ### The audio splitter (`audioSplitter.ts`)

The splitter performs I/O (FFmpeg probes and cuts, `fs` calls).  Each external
call's outcome is supplied by an environment (`PrepEnv` / `SplitEnv`), and every
filesystem *write* the code performs is recorded in an explicit `Effect` list,
so frame claims are statements about that list. -/

/-- The error thrown by `processChapterSplit`'s catch-all:
`Failed to process chapter ${chapterNumber}: ${errorMessage}`. -/
inductive ChapterErr
  | failedToProcess (num : Nat) (msg : List Char)
deriving DecidableEq, Repr

/-- Strings pushed into `SplitResult.errors`, one constructor per push site. -/
inductive ErrMsg
  | ffmpegMissing
  | inputValidationFailed (msg : List Char)
  | validation (e : VError)
  | mkdirFailed (msg : List Char)
  | insufficientDisk (availableBytes neededBytes : Nat)
  | chapter (num : Nat) (e : ChapterErr)
  | fatal (msg : List Char)
deriving DecidableEq, Repr

/-- A filesystem write performed by the splitter. -/
inductive Effect
  | mkdir (dir : List Char)
  | cut (path : List Char)
  | tag (path : List Char)
deriving DecidableEq, Repr

/-- `SplitResult` from `types.ts`. -/
structure SplitResult where
  success : Bool
  outputFiles : List (List Char)
  errors : List ErrMsg
  totalChapters : Nat
  processedChapters : Nat
deriving DecidableEq, Repr

/-- `ChapterFile` from `types.ts`. -/
structure ChapterFile where
  chapterNumber : Nat
  title : List Char
  filePath : List Char
  startTimeMs : Int
  durationMs : Int
deriving DecidableEq, Repr

/-- `ChapterSplitConfig` from `types.ts` (the loosely-typed `metadata` object
only feeds tag contents, which the claims never inspect; it is omitted). -/
structure ChapterSplitConfig where
  bookTitle : List Char
  chapters : List ChapterInfo
  outputDir : List Char
  format : List Char
deriving DecidableEq, Repr

/-- `SplitOptions` from `types.ts`; the optional booleans default to `false`
when absent, so they are modelled as plain `Bool`. -/
structure SplitOptions where
  inputPath : List Char
  outputDir : List Char
  dryRun : Bool
  overwrite : Bool
deriving DecidableEq, Repr

/-- Outcomes of the external calls made by `prepareSplitOperation`. -/
structure PrepEnv where
  ffmpeg : Bool
  ffprobe : Bool
  inputError : Option (List Char)
  audioDuration : Int
  audioSize : Nat
  mkdirError : Option (List Char)
  diskSpace : Option Nat

/-- State captured by the catch-all of `splitAudioByChapters` when the try
block throws: at every possible throw point `result.outputFiles` and
`result.errors` are still empty, while `result.processedChapters` holds the
count reached so far and some effects may already have happened. -/
structure FatalInfo where
  msg : List Char
  processedAtThrow : Nat
  effectsAtThrow : List Effect

/-- Outcomes of all external calls made during a split run.  `fileExists n`
is the `fs.access` probe and `cutError n` the `FFmpegService.splitAudioByTime`
outcome for chapter number `n`; `concurrency` is the value of
`calculateOptimalConcurrency()` (between 1 and 4 in the source). -/
structure SplitEnv where
  prep : PrepEnv
  fileExists : Nat → Bool
  cutError : Nat → Option (List Char)
  concurrency : Nat
  fatal : Option FatalInfo

/-- `estimateOutputSize` from `audioSplitter.ts`: `Math.ceil(inputSize * 1.1)`
modelled as exact ceiling of `inputSize * 11 / 10` (the `chapterCount`
parameter is unused in the source as well). -/
def estimateOutputSize (inputSize : Nat) (_chapterCount : Nat) : Nat :=
  (inputSize * 11 + 9) / 10

/-- `generateChapterFileName` from `audioSplitter.ts`. -/
def generateChapterFileName (bookTitle : List Char) (chapterNumber : Nat)
    (chapterTitle : List Char) (format : List Char) : List Char :=
  let safeBookTitle :=
    (trimJs (collapseWs (bookTitle.filter (fun c => !forbiddenChar c)))).take 50
  let chapterNum := padThree (natChars chapterNumber)
  let safeChapterTitle := chapterTitle.take 100
  let extension := if format.head? == some '.' then format else '.' :: format
  safeBookTitle ++ " - ".data ++ chapterNum ++ " - ".data ++ safeChapterTitle ++ extension

/-- `path.join(dir, name)`, modelled as `dir ++ "/" ++ name` (names produced
here are never empty or absolute, where `join` inserts exactly one slash). -/
def joinPath (dir name : List Char) : List Char := dir ++ "/".data ++ name

/-- `processChapterSplit` from `audioSplitter.ts`.  A resolved promise is
`.ok` (the returned `ChapterFile` together with the writes performed); a
rejected one is `.error`.  A tagging failure inside the inner try is only
logged, so tagging never rejects. -/
def processChapterSplit (env : SplitEnv) (options : SplitOptions)
    (config : ChapterSplitConfig) (chapterNumber : Nat) (chapter : ChapterInfo) :
    Except ChapterErr (ChapterFile × List Effect) :=
  let outputFileName :=
    generateChapterFileName config.bookTitle chapterNumber chapter.title config.format
  let outputPath := joinPath config.outputDir outputFileName
  let cf : ChapterFile :=
    ⟨chapterNumber, chapter.title, outputPath, chapter.startOffsetMs, chapter.lengthMs⟩
  if !options.overwrite && env.fileExists chapterNumber && !options.dryRun then
    .ok (cf, [])
  else if options.dryRun then
    .ok (cf, [])
  else
    match env.cutError chapterNumber with
    | some msg => .error (.failedToProcess chapterNumber msg)
    | none =>
      let tagEffects := if config.format == "mp3".data then [Effect.tag outputPath] else []
      .ok (cf, Effect.cut outputPath :: tagEffects)

/-- The disk-space check at the end of `prepareSplitOperation` (reached with
the effects already performed). -/
def diskCheck (env : PrepEnv) (config : ChapterSplitConfig) (effs : List Effect) :
    Bool × List ErrMsg × List Effect :=
  match env.diskSpace with
  | some avail =>
    let needed := estimateOutputSize env.audioSize config.chapters.length
    if avail < needed then (false, [.insufficientDisk avail needed], effs)
    else (true, [], effs)
  | none => (true, [], effs)

/-- `prepareSplitOperation` from `audioSplitter.ts`: returns the
`{ success, errors }` pair together with the writes performed. -/
def prepareSplitOperation (env : PrepEnv) (config : ChapterSplitConfig)
    (options : SplitOptions) : Bool × List ErrMsg × List Effect :=
  if !(env.ffmpeg && env.ffprobe) then (false, [.ffmpegMissing], [])
  else
    match env.inputError with
    | some msg => (false, [.inputValidationFailed msg], [])
    | none =>
      let validationResult := validateChapters config.chapters (some env.audioDuration)
      if !validationResult.isValid then
        (false, validationResult.errors.map ErrMsg.validation, [])
      else
        if options.dryRun then diskCheck env config []
        else
          match env.mkdirError with
          | some msg => (false, [.mkdirFailed msg], [])
          | none => diskCheck env config [Effect.mkdir config.outputDir]

/-- The accumulator mutated across the batch loop of `splitAudioByChapters`:
`chapterFiles`, `errors`, `result.processedChapters` and the writes so far. -/
structure BatchState where
  files : List ChapterFile
  errors : List ErrMsg
  processed : Nat
  effects : List Effect
deriving DecidableEq, Repr

/-- The `batchResults.forEach` accounting applied to each settled chapter of a
batch, in batch order; `num` is the number of chapters before this one, so the
current chapter number is `num + 1`. -/
def runChapters (env : SplitEnv) (options : SplitOptions)
    (config : ChapterSplitConfig) (num : Nat) (l : List ChapterInfo)
    (st : BatchState) : BatchState :=
  match l with
  | [] => st
  | c :: rest =>
    let st2 :=
      match processChapterSplit env options config (num + 1) c with
      | .ok (cf, eff) =>
        { st with files := st.files ++ [cf], processed := st.processed + 1,
                  effects := st.effects ++ eff }
      | .error e => { st with errors := st.errors ++ [.chapter (num + 1) e] }
    runChapters env options config (num + 1) rest st2

/-- The batch loop `for (let i = 0; i < n; i += concurrency)`: slices of size
`concurrency` processed strictly in order.  (For `concurrency = 0`, which the
source can never produce, the model degrades to batch size 1.) -/
def runBatches (env : SplitEnv) (options : SplitOptions)
    (config : ChapterSplitConfig) (conc : Nat) (num : Nat)
    (l : List ChapterInfo) (st : BatchState) : BatchState :=
  match l with
  | [] => st
  | c :: rest =>
    let batch := c :: rest.take (conc - 1)
    let st2 := runChapters env options config num batch st
    runBatches env options config conc (num + batch.length) (rest.drop (conc - 1)) st2
  termination_by l.length
  decreasing_by simp; omega

/-- `splitAudioByChapters` from `audioSplitter.ts`, returning the
`SplitResult` together with every filesystem write performed. -/
def splitAudioByChapters (env : SplitEnv) (config : ChapterSplitConfig)
    (options : SplitOptions) : SplitResult × List Effect :=
  let totalChapters := config.chapters.length
  match env.fatal with
  | some f =>
    (⟨false, [], [.fatal f.msg], totalChapters, f.processedAtThrow⟩, f.effectsAtThrow)
  | none =>
    let prep := prepareSplitOperation env.prep config options
    if !prep.1 then (⟨false, [], prep.2.1, totalChapters, 0⟩, prep.2.2)
    else
      let sortedChapters := sortChaptersByStartTime config.chapters
      let normalizedChapters := normalizeChapterTitles sortedChapters
      let st := runBatches env options config env.concurrency 0 normalizedChapters ⟨[], [], 0, []⟩
      (⟨st.errors.isEmpty && st.processed == totalChapters,
        st.files.map (·.filePath), st.errors, totalChapters, st.processed⟩,
       prep.2.2 ++ st.effects)

/-- The `ChapterFile` value that `processChapterSplit` resolves with for
chapter number `n` and chapter `c`. -/
def expectedFile (config : ChapterSplitConfig) (n : Nat) (c : ChapterInfo) : ChapterFile :=
  ⟨n, c.title, joinPath config.outputDir
      (generateChapterFileName config.bookTitle n c.title config.format),
   c.startOffsetMs, c.lengthMs⟩

/-- A chapter resolves (is skipped, simulated, or cut successfully) rather
than rejecting. -/
def fulfills (env : SplitEnv) (options : SplitOptions) (n : Nat) : Prop :=
  (options.overwrite = false ∧ env.fileExists n = true ∧ options.dryRun = false) ∨
  options.dryRun = true ∨ env.cutError n = none

/-- Five valid contiguous sample chapters, used by concrete witnesses. -/
def sampleChapters : List ChapterInfo :=
  [⟨"One".data, 100000, 0⟩, ⟨"Two".data, 100000, 100000⟩,
   ⟨"Three".data, 100000, 200000⟩, ⟨"Four".data, 100000, 300000⟩,
   ⟨"Five".data, 100000, 400000⟩]

/-- Sample split configuration for the witnesses. -/
def sampleConfig : ChapterSplitConfig :=
  ⟨"Book".data, sampleChapters, "out".data, "mp3".data⟩

/-- Sample preflight environment: everything available, audio matches the
chapters, disk space undeterminable (check skipped as in the source). -/
def samplePrepEnv : PrepEnv := ⟨true, true, none, 500000, 1000, none, none⟩

/-- Sample run environment: no pre-existing outputs, chapter 3's cut throws,
concurrency 2, no fatal throw. -/
def sampleEnv : SplitEnv :=
  ⟨samplePrepEnv, fun _ => false,
   fun n => if n = 3 then some "boom".data else none, 2, none⟩

/-- Sample options for a real run. -/
def sampleOptions : SplitOptions := ⟨"in.m4b".data, "out".data, false, false⟩

/-- Sample options for a dry run. -/
def sampleOptionsDry : SplitOptions := ⟨"in.m4b".data, "out".data, true, false⟩

/-! ### Auxiliary specification-level definitions used by the proofs -/

/-- `lastChapterEnd` accumulation of the timing loop. -/
def lastEndStep (sorted : List ChapterInfo) (v : Int) (i : Nat) : Int :=
  let c := sorted.getD i default
  let chapterEnd := c.startOffsetMs + c.lengthMs
  if chapterEnd > v then chapterEnd else v

/-- The total duration of the gaps recorded at index `i`. -/
def gapDurAt (sorted : List ChapterInfo) (i : Nat) : Int :=
  ((gapAt sorted i).map (·.gapDurationMs)).sum

/-- No two adjacent whitespace characters. -/
def wsPair (a b : Char) : Prop :=
  ¬(jsWhitespace a = true ∧ jsWhitespace b = true)

instance : DecidableRel wsPair := fun a b => by unfold wsPair; infer_instance

/-- The invariant maintained by `replace(/\s+/g, ' ')`: all whitespace is a
plain space, and no two adjacent characters are both whitespace. -/
def SpaceNormal (l : List Char) : Prop :=
  (∀ c ∈ l, jsWhitespace c = true → c = ' ') ∧ l.Chain' wsPair

/-- Executable check for `Chain' wsPair`, so concrete strings can be checked
by `decide`. -/
def wsChainB : List Char → Bool
  | [] => true
  | [_] => true
  | a :: b :: l => (!(jsWhitespace a && jsWhitespace b)) && wsChainB (b :: l)

/-! ## Helper lemmas -/

theorem length_insertLe (le : ChapterInfo → ChapterInfo → Bool) (a : ChapterInfo)
    (l : List ChapterInfo) : (insertLe le a l).length = l.length + 1 := by
  induction l with
  | nil => rfl
  | cons b l ih => simp only [insertLe]; split <;> simp [ih]

theorem length_sortLe (le : ChapterInfo → ChapterInfo → Bool) (l : List ChapterInfo) :
    (sortLe le l).length = l.length := by
  induction l with
  | nil => rfl
  | cons a l ih => simp [sortLe, length_insertLe, ih]

theorem length_sortByStart (l : List ChapterInfo) :
    (sortByStart l).length = l.length := length_sortLe _ l

theorem length_sortChaptersByStartTime (l : List ChapterInfo) :
    (sortChaptersByStartTime l).length = l.length := by
  simp only [sortChaptersByStartTime]
  split
  · simp_all [List.isEmpty_iff]
  · exact length_sortLe _ l

theorem length_normalizeChapterTitles (l : List ChapterInfo) :
    (normalizeChapterTitles l).length = l.length := by
  simp [normalizeChapterTitles]

theorem isEmpty_append {α : Type} (l1 l2 : List α) :
    (l1 ++ l2).isEmpty = (l1.isEmpty && l2.isEmpty) := by
  cases l1 <;> cases l2 <;> rfl

theorem flatMap_isEmpty {α β : Type} (f : α → List β) (l : List α) :
    (l.flatMap f).isEmpty = l.all (fun a => (f a).isEmpty) := by
  induction l with
  | nil => rfl
  | cons a l ih => simp_all [isEmpty_append]

/-- The record update performed by one iteration of the sequence-validation
loop, in canonical appended form. -/
theorem seqStep_canonical (sorted : List ChapterInfo) (r : ValidationResult) (i : Nat) :
    seqStep sorted r i =
      ⟨r.isValid && (seqErrsAt sorted i).isEmpty,
       r.errors ++ seqErrsAt sorted i, r.warnings⟩ := by
  rcases r with ⟨v, e, w⟩
  simp only [seqStep, seqErrsAt]
  split <;> split <;> (try split) <;> (try split) <;>
    simp_all [List.isEmpty_iff, Bool.and_assoc]

theorem foldl_seqStep_spec (sorted : List ChapterInfo) (l : List Nat)
    (r : ValidationResult) :
    l.foldl (seqStep sorted) r =
      ⟨r.isValid && (l.flatMap (seqErrsAt sorted)).isEmpty,
       r.errors ++ l.flatMap (seqErrsAt sorted), r.warnings⟩ := by
  induction l generalizing r with
  | nil => simp
  | cons i l ih =>
    rw [List.foldl_cons, seqStep_canonical, ih]
    simp [isEmpty_append, Bool.and_assoc, List.append_assoc]

theorem timingStep_canonical (sorted : List ChapterInfo) (st : ValidationResult × Int)
    (i : Nat) :
    timingStep sorted st i =
      (⟨st.1.isValid && (timingErrsAt sorted i).isEmpty,
        st.1.errors ++ timingErrsAt sorted i,
        st.1.warnings ++ timingWarnsAt sorted i⟩,
       lastEndStep sorted st.2 i) := by
  rcases st with ⟨⟨v, e, w⟩, lastEnd⟩
  simp only [timingStep, timingErrsAt, timingWarnsAt, lastEndStep]
  split <;> split <;> (try split) <;> (try split) <;>
    simp_all [List.isEmpty_iff, Bool.and_assoc]

theorem foldl_timingStep_spec (sorted : List ChapterInfo) (l : List Nat)
    (st : ValidationResult × Int) :
    l.foldl (timingStep sorted) st =
      (⟨st.1.isValid && (l.flatMap (timingErrsAt sorted)).isEmpty,
        st.1.errors ++ l.flatMap (timingErrsAt sorted),
        st.1.warnings ++ l.flatMap (timingWarnsAt sorted)⟩,
       l.foldl (lastEndStep sorted) st.2) := by
  induction l generalizing st with
  | nil => simp
  | cons i l ih =>
    rw [List.foldl_cons, timingStep_canonical, ih]
    simp [isEmpty_append, Bool.and_assoc, List.append_assoc]

theorem gapStep_canonical (sorted : List ChapterInfo) (st : GapDetectionResult) (i : Nat) :
    gapStep sorted st i =
      ⟨st.hasGaps || !(gapAt sorted i).isEmpty,
       st.gaps ++ gapAt sorted i,
       st.totalGapDurationMs + gapDurAt sorted i⟩ := by
  rcases st with ⟨h, g, t⟩
  simp only [gapStep, gapAt, gapDurAt]
  split <;> simp_all [gapAt, List.isEmpty_iff]

theorem foldl_gapStep_spec (sorted : List ChapterInfo) (l : List Nat)
    (st : GapDetectionResult) :
    l.foldl (gapStep sorted) st =
      ⟨st.hasGaps || !(l.flatMap (gapAt sorted)).isEmpty,
       st.gaps ++ l.flatMap (gapAt sorted),
       st.totalGapDurationMs + (l.map (gapDurAt sorted)).sum⟩ := by
  induction l generalizing st with
  | nil => simp
  | cons i l ih =>
    rw [List.foldl_cons, gapStep_canonical, ih]
    simp [isEmpty_append, Bool.or_assoc, List.append_assoc, add_assoc]

/-- For a non-empty chapter list, the sequence validator is the canonical
flat-map of the per-index error lists. -/
theorem validateChapterSequence_eq (chapters : List ChapterInfo)
    (h : chapters.isEmpty = false) :
    validateChapterSequence chapters =
      ⟨((List.range (sortByStart chapters).length).flatMap
          (seqErrsAt (sortByStart chapters))).isEmpty,
       (List.range (sortByStart chapters).length).flatMap
          (seqErrsAt (sortByStart chapters)),
       if notChronoWarn chapters (sortByStart chapters) then [.notChronological] else []⟩ := by
  rw [validateChapterSequence, if_neg (by simp [h]), foldl_seqStep_spec]
  simp

theorem seq_isValid_eq (chapters : List ChapterInfo) :
    (validateChapterSequence chapters).isValid =
      (validateChapterSequence chapters).errors.isEmpty := by
  by_cases h : chapters.isEmpty
  · rw [validateChapterSequence, if_pos h]; rfl
  · rw [validateChapterSequence_eq chapters (by simpa using h)]

theorem timing_isValid_eq (chapters : List ChapterInfo) (totalDurationMs : Option Int) :
    (validateChapterTiming chapters totalDurationMs).isValid =
      (validateChapterTiming chapters totalDurationMs).errors.isEmpty := by
  rw [validateChapterTiming]
  split
  · rfl
  · rcases totalDurationMs with _ | total
    · simp [foldl_timingStep_spec]
    · simp only [foldl_timingStep_spec]
      split_ifs <;> simp [isEmpty_append]

theorem validateChapters_isValid_eq (chapters : List ChapterInfo)
    (totalDurationMs : Option Int) :
    (validateChapters chapters totalDurationMs).isValid =
      (validateChapters chapters totalDurationMs).errors.isEmpty := by
  rw [validateChapters]
  have hs := seq_isValid_eq chapters
  have ht := timing_isValid_eq chapters totalDurationMs
  split
  · simp [hs, ht, isEmpty_append]
  · simp [hs, ht, isEmpty_append]

/-! ## Claim theorems -/

/-- **C10** — For every chapter list and optional total duration, each of
`validateChapters`, `validateChapterSequence` and `validateChapterTiming`
returns a `ValidationResult` with `isValid = true` exactly when its error list
is empty; warnings are accumulated in a separate list and never feed into
`isValid`. -/
theorem isValid_iff_errors_empty (chapters : List ChapterInfo)
    (totalDurationMs : Option Int) :
    ((validateChapterSequence chapters).isValid =
       (validateChapterSequence chapters).errors.isEmpty) ∧
    ((validateChapterTiming chapters totalDurationMs).isValid =
       (validateChapterTiming chapters totalDurationMs).errors.isEmpty) ∧
    ((validateChapters chapters totalDurationMs).isValid =
       (validateChapters chapters totalDurationMs).errors.isEmpty) :=
  ⟨seq_isValid_eq chapters, timing_isValid_eq chapters totalDurationMs,
   validateChapters_isValid_eq chapters totalDurationMs⟩

/-- **C9** — On the empty chapter list, `validateChapters` returns a result
(totally, for every optional duration) that is invalid, contains the explicit
no-chapters error, and carries no warnings. -/
theorem validateChapters_empty (totalDurationMs : Option Int) :
    (validateChapters [] totalDurationMs).isValid = false ∧
    VError.noChaptersValidation ∈ (validateChapters [] totalDurationMs).errors ∧
    (validateChapters [] totalDurationMs).warnings = [] := by
  simp [validateChapters, validateChapterSequence, validateChapterTiming,
    detectChapterGaps]

/-- Membership of an overlap error in the per-index error list. -/
theorem overlap_mem_seqErrsAt {sorted : List ChapterInfo} {k j : Nat}
    {t1 t2 : List Char} {m : Int} :
    VError.overlap k t1 t2 m ∈ seqErrsAt sorted j ↔
      (k = j + 1 ∧ j + 1 < sorted.length ∧
       (sorted.getD j default).startOffsetMs + (sorted.getD j default).lengthMs >
         (sorted.getD (j + 1) default).startOffsetMs ∧
       t1 = (sorted.getD j default).title ∧
       t2 = (sorted.getD (j + 1) default).title ∧
       m = (sorted.getD j default).startOffsetMs + (sorted.getD j default).lengthMs -
           (sorted.getD (j + 1) default).startOffsetMs) := by
  simp only [seqErrsAt, List.mem_append]
  split_ifs with h1 h2 h3 h4 <;> simp_all

/-- **C1** — After the code's sort of a copy by ascending `startOffsetMs`,
`validateChapterSequence` reports an overlap error for the adjacent pair
`(i, i+1)` (the error carries the 1-based number `i+1`) exactly when
`sorted[i].startOffsetMs + sorted[i].lengthMs > sorted[i+1].startOffsetMs`,
and every such reported error's magnitude is exactly
`(sorted[i].startOffsetMs + sorted[i].lengthMs) - sorted[i+1].startOffsetMs`. -/
theorem validateChapterSequence_overlap_iff (chapters : List ChapterInfo) (i : Nat)
    (h : i + 1 < (sortByStart chapters).length) :
    ((∃ t1 t2 m, VError.overlap (i + 1) t1 t2 m ∈ (validateChapterSequence chapters).errors) ↔
       ((sortByStart chapters).getD i default).startOffsetMs +
         ((sortByStart chapters).getD i default).lengthMs >
         ((sortByStart chapters).getD (i + 1) default).startOffsetMs) ∧
    (∀ t1 t2 m, VError.overlap (i + 1) t1 t2 m ∈ (validateChapterSequence chapters).errors →
       m = ((sortByStart chapters).getD i default).startOffsetMs +
           ((sortByStart chapters).getD i default).lengthMs -
           ((sortByStart chapters).getD (i + 1) default).startOffsetMs) := by
  have hne : chapters.isEmpty = false := by
    rw [length_sortByStart] at h
    cases chapters
    · simp at h
    · rfl
  rw [validateChapterSequence_eq chapters hne]
  simp only [List.mem_flatMap, List.mem_range, overlap_mem_seqErrsAt]
  constructor
  · constructor
    · rintro ⟨t1, t2, m, j, hj, hk, hlen, hcond, ht1, ht2, hm⟩
      obtain rfl : j = i := by omega
      exact hcond
    · intro hcond
      exact ⟨_, _, _, i, by omega, rfl, h, hcond, rfl, rfl, rfl⟩
  · rintro t1 t2 m ⟨j, hj, hk, hlen, hcond, ht1, ht2, hm⟩
    obtain rfl : j = i := by omega
    exact hm

/-- Witness for C1 at a concrete overlapping pair: chapter "A" spans
[0, 100) and "B" starts at 50, so an overlap error for pair (0, 1) is
reported. -/
theorem validateChapterSequence_overlap_iff_witness :
    ∃ t1 t2 m, VError.overlap 1 t1 t2 m ∈
      (validateChapterSequence
        [⟨"A".data, 100, 0⟩, ⟨"B".data, 100, 50⟩]).errors :=
  (validateChapterSequence_overlap_iff
    [⟨"A".data, 100, 0⟩, ⟨"B".data, 100, 50⟩] 0 (by decide)).1.mpr (by decide)

/-- Membership of a gap record in the per-index gap list. -/
theorem mem_gapAt {sorted : List ChapterInfo} {g : ChapterGap} {j : Nat} :
    g ∈ gapAt sorted j ↔
      ((sorted.getD (j + 1) default).startOffsetMs >
         (sorted.getD j default).startOffsetMs + (sorted.getD j default).lengthMs + 1000 ∧
       g = ⟨j, (sorted.getD j default).startOffsetMs + (sorted.getD j default).lengthMs,
            (sorted.getD (j + 1) default).startOffsetMs,
            (sorted.getD (j + 1) default).startOffsetMs -
              ((sorted.getD j default).startOffsetMs + (sorted.getD j default).lengthMs),
            jsRoundDiv ((sorted.getD (j + 1) default).startOffsetMs -
              ((sorted.getD j default).startOffsetMs + (sorted.getD j default).lengthMs)) 1000,
            (sorted.getD j default).title, (sorted.getD (j + 1) default).title⟩) := by
  simp only [gapAt]
  split_ifs with h1 <;> simp_all

/-- Canonical form of `detectChapterGaps` for lists of at least two chapters. -/
theorem detectChapterGaps_eq (chapters : List ChapterInfo)
    (h : ¬ chapters.length ≤ 1) :
    detectChapterGaps chapters =
      ⟨!((List.range ((sortByStart chapters).length - 1)).flatMap
           (gapAt (sortByStart chapters))).isEmpty,
       (List.range ((sortByStart chapters).length - 1)).flatMap
           (gapAt (sortByStart chapters)),
       ((List.range ((sortByStart chapters).length - 1)).map
           (gapDurAt (sortByStart chapters))).sum⟩ := by
  rw [detectChapterGaps, if_neg h, foldl_gapStep_spec]
  simp

/-- **C4** — After the code's sort of a copy by ascending `startOffsetMs`,
`detectChapterGaps` records a gap for the adjacent pair `(i, i+1)` exactly
when `sorted[i+1].startOffsetMs - (sorted[i].startOffsetMs +
sorted[i].lengthMs)` is strictly greater than 1000 ms (so a silence of
exactly 1000 ms or less yields no gap), and every recorded gap's
`gapDurationMs` is exactly that difference. -/
theorem detectChapterGaps_gap_iff (chapters : List ChapterInfo) (i : Nat)
    (h : i + 1 < (sortByStart chapters).length) :
    ((∃ g ∈ (detectChapterGaps chapters).gaps, g.chapterIndex = i) ↔
       ((sortByStart chapters).getD (i + 1) default).startOffsetMs -
         (((sortByStart chapters).getD i default).startOffsetMs +
          ((sortByStart chapters).getD i default).lengthMs) > 1000) ∧
    (∀ g ∈ (detectChapterGaps chapters).gaps, g.chapterIndex = i →
       g.gapDurationMs =
         ((sortByStart chapters).getD (i + 1) default).startOffsetMs -
           (((sortByStart chapters).getD i default).startOffsetMs +
            ((sortByStart chapters).getD i default).lengthMs)) := by
  have hlen : ¬ chapters.length ≤ 1 := by
    rw [length_sortByStart] at h; omega
  rw [detectChapterGaps_eq chapters hlen]
  simp only [List.mem_flatMap, List.mem_range, mem_gapAt]
  constructor
  · constructor
    · rintro ⟨g, ⟨j, hj, hcond, rfl⟩, hidx⟩
      obtain rfl : j = i := hidx
      omega
    · intro hcond
      refine ⟨_, ⟨i, by rw [length_sortByStart] at h ⊢; omega, by omega, rfl⟩, rfl⟩
  · rintro g ⟨j, hj, hcond, rfl⟩ hidx
    obtain rfl : j = i := hidx
    dsimp only

/-- Witness for C4 at a concrete pair with a 1900 ms silence: chapter "A"
spans [0, 100) and "B" starts at 2000, so a gap is recorded for pair (0, 1). -/
theorem detectChapterGaps_gap_iff_witness :
    ∃ g ∈ (detectChapterGaps
        [⟨"A".data, 100, 0⟩, ⟨"B".data, 100, 2000⟩]).gaps, g.chapterIndex = 0 :=
  (detectChapterGaps_gap_iff
    [⟨"A".data, 100, 0⟩, ⟨"B".data, 100, 2000⟩] 0 (by decide)).1.mpr (by decide)

/-! ## String toolkit lemmas -/

theorem mem_dropWhile {p : Char → Bool} {l : List Char} {c : Char}
    (h : c ∈ l.dropWhile p) : c ∈ l := by
  induction l with
  | nil => simp at h
  | cons a l ih =>
    rw [List.dropWhile_cons] at h
    split at h
    · exact List.mem_cons_of_mem a (ih h)
    · exact h

theorem mem_dropTrailing {p : Char → Bool} {l : List Char} {c : Char}
    (h : c ∈ dropTrailing p l) : c ∈ l := by
  rw [dropTrailing, List.mem_reverse] at h
  simpa using mem_dropWhile h

theorem length_dropWhile_le (p : Char → Bool) (l : List Char) :
    (l.dropWhile p).length ≤ l.length := by
  induction l with
  | nil => simp
  | cons a l ih =>
    rw [List.dropWhile_cons]
    split
    · simp; omega
    · simp

theorem length_dropTrailing_le (p : Char → Bool) (l : List Char) :
    (dropTrailing p l).length ≤ l.length := by
  rw [dropTrailing, List.length_reverse]
  simpa using length_dropWhile_le p l.reverse

theorem length_trimJs_le (l : List Char) : (trimJs l).length ≤ l.length :=
  le_trans (length_dropTrailing_le _ _) (length_dropWhile_le _ l)

theorem dropWhile_head_not (p : Char → Bool) (l : List Char) :
    ∀ c ∈ (l.dropWhile p).head?, p c = false := by
  induction l with
  | nil => simp
  | cons a l ih =>
    rw [List.dropWhile_cons]
    split
    · exact ih
    · intro c hc
      simp only [List.head?_cons, Option.mem_def, Option.some.injEq] at hc
      subst hc
      simp_all

theorem dropTrailing_getLast_not (p : Char → Bool) (l : List Char) :
    ∀ c ∈ (dropTrailing p l).getLast?, p c = false := by
  rw [dropTrailing]
  rw [List.getLast?_reverse]
  exact dropWhile_head_not p l.reverse

/-- `dropWhile` keeps a suffix: the original splits as kept ++ result. -/
theorem dropTrailing_split (p : Char → Bool) (l : List Char) :
    ∃ t, l = dropTrailing p l ++ t := by
  refine ⟨(l.reverse.takeWhile p).reverse, ?_⟩
  rw [dropTrailing, ← List.reverse_append, List.takeWhile_append_dropWhile,
    List.reverse_reverse]

theorem dropTrailing_head? (p : Char → Bool) (l : List Char)
    (h : dropTrailing p l ≠ []) : (dropTrailing p l).head? = l.head? := by
  obtain ⟨t, ht⟩ := dropTrailing_split p l
  conv_rhs => rw [ht]
  rw [List.head?_append]
  cases hd : (dropTrailing p l).head? with
  | none =>
    rw [List.head?_eq_none_iff] at hd
    exact absurd hd h
  | some c => simp [Option.or]

theorem dropWhile_eq_self_of_head (p : Char → Bool) (l : List Char)
    (h : ∀ c ∈ l.head?, p c = false) : l.dropWhile p = l := by
  cases l with
  | nil => rfl
  | cons a l =>
    rw [List.dropWhile_cons, if_neg]
    simp only [List.head?_cons, Option.mem_def, Option.some.injEq] at h
    simp [h a rfl]

theorem dropTrailing_eq_self_of_getLast (p : Char → Bool) (l : List Char)
    (h : ∀ c ∈ l.getLast?, p c = false) : dropTrailing p l = l := by
  rw [dropTrailing, dropWhile_eq_self_of_head, List.reverse_reverse]
  intro c hc
  exact h c (by rwa [← List.getLast?_reverse l.reverse, List.reverse_reverse] at hc)

/-! ### Whitespace-normalised strings -/

theorem wsPair_symm {a b : Char} (h : wsPair a b) : wsPair b a := by
  unfold wsPair at h ⊢; tauto

theorem mem_collapseWsAux {b : Bool} {s : List Char} {c : Char}
    (h : c ∈ collapseWsAux b s) : c ∈ s ∨ c = ' ' := by
  induction s generalizing b with
  | nil => simp [collapseWsAux] at h
  | cons a s ih =>
    rw [collapseWsAux] at h
    split at h
    · split at h
      · rcases ih h with h1 | h1
        · exact Or.inl (List.mem_cons_of_mem a h1)
        · exact Or.inr h1
      · rcases List.mem_cons.1 h with h1 | h1
        · exact Or.inr h1
        · rcases ih h1 with h2 | h2
          · exact Or.inl (List.mem_cons_of_mem a h2)
          · exact Or.inr h2
    · rcases List.mem_cons.1 h with h1 | h1
      · exact Or.inl (h1 ▸ List.mem_cons_self a s)
      · rcases ih h1 with h2 | h2
        · exact Or.inl (List.mem_cons_of_mem a h2)
        · exact Or.inr h2

theorem collapseWsAux_spaceNormal (s : List Char) : ∀ b : Bool,
    (∀ c ∈ collapseWsAux b s, jsWhitespace c = true → c = ' ') ∧
    (collapseWsAux b s).Chain' wsPair ∧
    (b = true → ∀ c ∈ (collapseWsAux b s).head?, jsWhitespace c = false) := by
  induction s with
  | nil => intro b; simp [collapseWsAux]
  | cons a s ih =>
    intro b
    rw [collapseWsAux]
    split
    · split
      · exact ⟨(ih true).1, (ih true).2.1, fun _ => (ih true).2.2 rfl⟩
      · next hprev =>
        refine ⟨?_, ?_, ?_⟩
        · intro c hc
          rcases List.mem_cons.1 hc with h1 | h1
          · intro _; exact h1
          · exact (ih true).1 c h1
        · rw [List.chain'_cons']
          refine ⟨?_, (ih true).2.1⟩
          intro y hy
          have hws := (ih true).2.2 rfl y hy
          unfold wsPair
          simp [hws]
        · intro hb; exact absurd hb hprev
    · next hna =>
      refine ⟨?_, ?_, ?_⟩
      · intro c hc
        rcases List.mem_cons.1 hc with h1 | h1
        · intro hw; rw [h1] at hw; exact absurd hw hna
        · exact (ih false).1 c h1
      · rw [List.chain'_cons']
        refine ⟨?_, (ih false).2.1⟩
        intro y hy
        unfold wsPair
        simp [hna]
      · intro _ c hc
        simp only [List.head?_cons, Option.mem_def, Option.some.injEq] at hc
        subst hc
        simpa using hna

theorem spaceNormal_collapseWs (s : List Char) : SpaceNormal (collapseWs s) :=
  ⟨(collapseWsAux_spaceNormal s false).1, (collapseWsAux_spaceNormal s false).2.1⟩

theorem collapseWsAux_eq_self (l : List Char)
    (h1 : ∀ c ∈ l, jsWhitespace c = true → c = ' ') (h2 : l.Chain' wsPair) :
    ∀ b : Bool, (b = true → ∀ c ∈ l.head?, jsWhitespace c = false) →
      collapseWsAux b l = l := by
  induction l with
  | nil => intro b _; rfl
  | cons a l ih =>
    intro b hb
    rw [List.chain'_cons'] at h2
    rw [collapseWsAux]
    split
    · next hws =>
      have hbf : b = false := by
        cases b
        · rfl
        · exact absurd (hb rfl a (by simp)) (by simp [hws])
      subst hbf
      simp only [if_neg Bool.false_ne_true]
      have ha : a = ' ' := h1 a (by simp) hws
      rw [ih (fun c hc hw => h1 c (List.mem_cons_of_mem a hc) hw) h2.2 true ?_, ha]
      intro _ c hc
      have := h2.1 c hc
      unfold wsPair at this
      rcases Bool.eq_false_or_eq_true (jsWhitespace c) with h | h
      · exact absurd ⟨hws, h⟩ this
      · exact h
    · next hws =>
      rw [ih (fun c hc hw => h1 c (List.mem_cons_of_mem a hc) hw) h2.2 false (by simp)]

theorem collapseWs_eq_self {l : List Char} (h : SpaceNormal l) : collapseWs l = l :=
  collapseWsAux_eq_self l h.1 h.2 false (by simp)

theorem spaceNormal_take (n : Nat) {l : List Char} (h : SpaceNormal l) :
    SpaceNormal (l.take n) := by
  refine ⟨fun c hc => h.1 c (List.mem_of_mem_take hc), ?_⟩
  have := h.2
  rw [← List.take_append_drop n l, List.chain'_append] at this
  exact this.1

theorem spaceNormal_dropWhile (p : Char → Bool) {l : List Char} (h : SpaceNormal l) :
    SpaceNormal (l.dropWhile p) := by
  refine ⟨fun c hc => h.1 c (mem_dropWhile hc), ?_⟩
  have := h.2
  rw [← List.takeWhile_append_dropWhile p l, List.chain'_append] at this
  exact this.2.1

theorem spaceNormal_dropTrailing (p : Char → Bool) {l : List Char} (h : SpaceNormal l) :
    SpaceNormal (dropTrailing p l) := by
  refine ⟨fun c hc => h.1 c (mem_dropTrailing hc), ?_⟩
  rw [dropTrailing]
  rw [List.chain'_reverse]
  have h1 : (l.reverse).Chain' wsPair := by
    rw [List.chain'_reverse]
    exact h.2.imp (fun a b => wsPair_symm)
  have h2 : SpaceNormal l.reverse := ⟨fun c hc => h.1 c (by simpa using hc), h1⟩
  exact ((spaceNormal_dropWhile p h2).2).imp (fun a b => wsPair_symm)

theorem spaceNormal_trimJs {l : List Char} (h : SpaceNormal l) :
    SpaceNormal (trimJs l) :=
  spaceNormal_dropTrailing _ (spaceNormal_dropWhile _ h)

theorem spaceNormal_append {a b : List Char} (ha : SpaceNormal a) (hb : SpaceNormal b)
    (hmid : ∀ x ∈ a.getLast?, ∀ y ∈ b.head?, wsPair x y) : SpaceNormal (a ++ b) := by
  refine ⟨?_, List.chain'_append.2 ⟨ha.2, hb.2, hmid⟩⟩
  intro c hc
  rcases List.mem_append.1 hc with h1 | h1
  · exact ha.1 c h1
  · exact hb.1 c h1

theorem chain'_of_wsChainB : ∀ {l : List Char}, wsChainB l = true → l.Chain' wsPair
  | [], _ => List.chain'_nil
  | [_], _ => List.chain'_singleton _
  | a :: b :: l, h => by
    rw [wsChainB, Bool.and_eq_true] at h
    rw [List.chain'_cons]
    refine ⟨?_, chain'_of_wsChainB h.2⟩
    unfold wsPair
    intro hc
    rw [hc.1, hc.2] at h
    simpa using h.1

theorem spaceNormal_of_checks (l : List Char)
    (h1 : l.all (fun c => !jsWhitespace c || (c == ' ')) = true)
    (h2 : wsChainB l = true) : SpaceNormal l := by
  refine ⟨?_, chain'_of_wsChainB h2⟩
  intro c hc hw
  rw [List.all_eq_true] at h1
  have := h1 c hc
  rw [hw] at this
  simpa using this

/-! ### Decimal digit strings -/

theorem digitChar_props (k : Nat) :
    forbiddenChar (digitChar k) = false ∧ dotOrWs (digitChar k) = false := by
  unfold digitChar
  have h : k % 10 < 10 := Nat.mod_lt _ (by omega)
  set m := k % 10 with hm
  interval_cases m <;> exact ⟨by decide, by decide⟩

theorem natCharsAux_mem (fuel : Nat) : ∀ (n : Nat), ∀ c ∈ natCharsAux fuel n,
    ∃ k, c = digitChar k := by
  induction fuel with
  | zero => intro n c hc; simp [natCharsAux] at hc
  | succ fuel ih =>
    intro n c hc
    rw [natCharsAux] at hc
    split at hc
    · simp only [List.mem_singleton] at hc
      exact ⟨n, hc⟩
    · rcases List.mem_append.1 hc with h1 | h1
      · exact ih (n / 10) c h1
      · simp only [List.mem_singleton] at h1
        exact ⟨n % 10, h1⟩

theorem natChars_mem (n : Nat) : ∀ c ∈ natChars n, ∃ k, c = digitChar k :=
  natCharsAux_mem (n + 1) n

theorem natChars_ne_nil (n : Nat) : natChars n ≠ [] := by
  rw [natChars, natCharsAux]
  split
  · simp
  · simp

theorem natChars_not_dotOrWs (n : Nat) : ∀ c ∈ natChars n, dotOrWs c = false := by
  intro c hc
  obtain ⟨k, rfl⟩ := natChars_mem n c hc
  exact (digitChar_props k).2

theorem natChars_not_forbidden (n : Nat) : ∀ c ∈ natChars n, forbiddenChar c = false := by
  intro c hc
  obtain ⟨k, rfl⟩ := natChars_mem n c hc
  exact (digitChar_props k).1

theorem dotOrWs_false_not_ws {c : Char} (h : dotOrWs c = false) :
    jsWhitespace c = false := by
  unfold dotOrWs at h
  rcases Bool.eq_false_or_eq_true (jsWhitespace c) with h1 | h1
  · simp_all
  · exact h1

theorem natChars_spaceNormal (n : Nat) : SpaceNormal (natChars n) := by
  constructor
  · intro c hc hw
    have := dotOrWs_false_not_ws (natChars_not_dotOrWs n c hc)
    rw [hw] at this
    simp at this
  · have : ∀ l : List Char, (∀ c ∈ l, jsWhitespace c = false) → l.Chain' wsPair := by
      intro l hl
      induction l with
      | nil => exact List.chain'_nil
      | cons a l ih =>
        rw [List.chain'_cons']
        refine ⟨?_, ih (fun c hc => hl c (List.mem_cons_of_mem a hc))⟩
        intro y hy
        unfold wsPair
        intro hc
        have := hl a (List.mem_cons_self a l)
        rw [hc.1] at this
        simp at this
    exact this _ (fun c hc =>
      dotOrWs_false_not_ws (natChars_not_dotOrWs n c hc))

/-! ### Characterisation of `normalizeTitle` output -/

theorem chapterN_spaceNormal (index : Nat) : SpaceNormal (chapterN index) := by
  refine spaceNormal_append ?_ (natChars_spaceNormal (index + 1)) ?_
  · exact spaceNormal_of_checks _ (by decide) (by decide)
  · intro x hx y hy
    have hm : y ∈ natChars (index + 1) := List.mem_of_mem_head? hy
    have := dotOrWs_false_not_ws (natChars_not_dotOrWs _ y hm)
    unfold wsPair
    intro hc
    rw [hc.2] at this
    simp at this

theorem chapterN_not_forbidden (index : Nat) :
    ∀ c ∈ chapterN index, forbiddenChar c = false := by
  intro c hc
  rcases List.mem_append.1 hc with h1 | h1
  · have hfix : ∀ d ∈ "Chapter ".data, forbiddenChar d = false := by decide
    exact hfix c h1
  · exact natChars_not_forbidden _ c h1

theorem chapterN_head (index : Nat) : (chapterN index).head? = some 'C' := rfl

theorem chapterN_getLast_not_dotOrWs (index : Nat) :
    ∀ c ∈ (chapterN index).getLast?, dotOrWs c = false := by
  intro c hc
  rw [chapterN, List.getLast?_append] at hc
  rcases hn : (natChars (index + 1)).getLast? with _ | d
  · rw [List.getLast?_eq_none_iff] at hn
    exact absurd hn (natChars_ne_nil _)
  · rw [hn] at hc
    simp only [Option.or_some, Option.mem_def, Option.some.injEq] at hc
    have hd : d ∈ natChars (index + 1) := List.mem_of_mem_getLast? (by rw [hn]; rfl)
    rw [← hc]
    exact natChars_not_dotOrWs _ d hd

/-! ### Reserved-name facts -/

theorem reservedTest_length_le {s : List Char} (h : reservedTest s = true) :
    s.length ≤ 4 := by
  unfold reservedTest at h
  have hm : s.map asciiUpper ∈ reservedNames := List.mem_of_elem_eq_true h
  have hlen : ∀ x ∈ reservedNames, x.length ≤ 4 := by decide
  have := hlen _ hm
  rwa [List.length_map] at this

theorem reservedTest_false_of_length {s : List Char} (h : 4 < s.length) :
    reservedTest s = false := by
  rcases Bool.eq_false_or_eq_true (reservedTest s) with h1 | h1
  · exact absurd (reservedTest_length_le h1) (by omega)
  · exact h1

/-! ### The output of `normalizeTitle` -/

theorem mem_cleanedTitle {s : List Char} {c : Char} (h : c ∈ cleanedTitle s) :
    (c ∈ s ∧ forbiddenChar c = false) ∨ c = ' ' := by
  unfold cleanedTitle trimJs at h
  have h1 := mem_dropWhile (mem_dropTrailing h)
  rcases mem_collapseWsAux h1 with h2 | h2
  · rw [List.mem_filter] at h2
    exact Or.inl ⟨h2.1, by simpa using h2.2⟩
  · exact Or.inr h2

theorem cleanedTitle_not_forbidden (s : List Char) :
    ∀ c ∈ cleanedTitle s, forbiddenChar c = false := by
  intro c hc
  rcases mem_cleanedTitle hc with ⟨_, h⟩ | h
  · exact h
  · rw [h]; decide

theorem cleanedTitle_spaceNormal (s : List Char) : SpaceNormal (cleanedTitle s) :=
  spaceNormal_trimJs (spaceNormal_collapseWs _)

theorem titledOrSynthetic_not_forbidden (index : Nat) (s : List Char) :
    ∀ c ∈ titledOrSynthetic index (cleanedTitle s), forbiddenChar c = false := by
  unfold titledOrSynthetic
  split
  · exact chapterN_not_forbidden index
  · exact cleanedTitle_not_forbidden s

theorem titledOrSynthetic_spaceNormal (index : Nat) (s : List Char) :
    SpaceNormal (titledOrSynthetic index (cleanedTitle s)) := by
  unfold titledOrSynthetic
  split
  · exact chapterN_spaceNormal index
  · exact cleanedTitle_spaceNormal s

theorem ellipsis_spaceNormal : SpaceNormal "...".data :=
  spaceNormal_of_checks _ (by decide) (by decide)

theorem truncated_not_forbidden {t2 : List Char}
    (h : ∀ c ∈ t2, forbiddenChar c = false) :
    ∀ c ∈ truncated t2, forbiddenChar c = false := by
  unfold truncated
  split
  · intro c hc
    rcases List.mem_append.1 hc with h1 | h1
    · exact h c (List.mem_of_mem_take h1)
    · have : ∀ d ∈ "...".data, forbiddenChar d = false := by decide
      exact this c h1
  · exact h

theorem truncated_spaceNormal {t2 : List Char} (h : SpaceNormal t2) :
    SpaceNormal (truncated t2) := by
  unfold truncated
  split
  · refine spaceNormal_append (spaceNormal_take 197 h) ellipsis_spaceNormal ?_
    intro x hx y hy
    have : y = '.' := by
      have := List.mem_of_mem_head? hy
      simp only [List.mem_cons] at this
      rcases this with h1 | h1 | h1 | h1 <;> first | exact h1 | simp at h1
    unfold wsPair
    rw [this]
    intro hc
    exact absurd hc.2 (by decide)
  · exact h

theorem truncated_length_le {t2 : List Char} : (truncated t2).length ≤ 200 ∨
    (truncated t2 = t2 ∧ t2.length ≤ 200) := by
  unfold truncated
  split
  · left
    rw [List.length_append, List.length_take]
    have h3 : ("...".data).length = 3 := rfl
    omega
  · right
    exact ⟨rfl, by omega⟩

theorem strippedTitle_length_le (t3 : List Char) :
    (strippedTitle t3).length ≤ t3.length := by
  unfold strippedTitle stripTrailDots stripEdgeDots
  calc (dropTrailing dotOrWs (dropTrailing dotOrWs (t3.dropWhile dotOrWs))).length
      ≤ (dropTrailing dotOrWs (t3.dropWhile dotOrWs)).length :=
        length_dropTrailing_le _ _
    _ ≤ (t3.dropWhile dotOrWs).length := length_dropTrailing_le _ _
    _ ≤ t3.length := length_dropWhile_le _ _

theorem mem_strippedTitle {t3 : List Char} {c : Char} (h : c ∈ strippedTitle t3) :
    c ∈ t3 := by
  unfold strippedTitle stripTrailDots stripEdgeDots at h
  exact mem_dropWhile (mem_dropTrailing (mem_dropTrailing h))

theorem strippedTitle_spaceNormal {t3 : List Char} (h : SpaceNormal t3) :
    SpaceNormal (strippedTitle t3) :=
  spaceNormal_dropTrailing _ (spaceNormal_dropTrailing _ (spaceNormal_dropWhile _ h))

/-- A non-empty stripped title neither starts nor ends with a dot or
whitespace. -/
theorem strippedTitle_edges (t3 : List Char) (h : strippedTitle t3 ≠ []) :
    (∀ c ∈ (strippedTitle t3).head?, dotOrWs c = false) ∧
    (∀ c ∈ (strippedTitle t3).getLast?, dotOrWs c = false) := by
  unfold strippedTitle stripTrailDots at h ⊢
  constructor
  · have h4 : stripEdgeDots t3 ≠ [] := by
      intro he
      rw [he] at h
      exact h rfl
    rw [dropTrailing_head? _ _ h]
    unfold stripEdgeDots at h4 ⊢
    rw [dropTrailing_head? _ _ h4]
    exact dropWhile_head_not _ _
  · exact dropTrailing_getLast_not _ _

theorem normalizeTitle_not_forbidden (index : Nat) (s : List Char) :
    ∀ c ∈ normalizeTitle index s, forbiddenChar c = false := by
  rw [normalizeTitle]
  split
  · intro c hc
    rcases List.mem_append.1 hc with h1 | h1
    · exact truncated_not_forbidden (titledOrSynthetic_not_forbidden index s) c
        (mem_strippedTitle h1)
    · have : ∀ d ∈ "_chapter".data, forbiddenChar d = false := by decide
      exact this c h1
  · intro c hc
    exact truncated_not_forbidden (titledOrSynthetic_not_forbidden index s) c
      (mem_strippedTitle hc)

theorem underscoreChapter_spaceNormal : SpaceNormal "_chapter".data :=
  spaceNormal_of_checks _ (by decide) (by decide)

theorem normalizeTitle_spaceNormal (index : Nat) (s : List Char) :
    SpaceNormal (normalizeTitle index s) := by
  have h5 : SpaceNormal (strippedTitle (truncated (titledOrSynthetic index
      (cleanedTitle s)))) :=
    strippedTitle_spaceNormal (truncated_spaceNormal
      (titledOrSynthetic_spaceNormal index s))
  rw [normalizeTitle]
  split
  · refine spaceNormal_append h5 underscoreChapter_spaceNormal ?_
    intro x hx y hy
    have hy2 : y = '_' := by
      simp only [List.head?_cons, Option.mem_def, Option.some.injEq] at hy
      exact hy.symm
    unfold wsPair
    rw [hy2]
    intro hc
    exact absurd hc.2 (by decide)
  · exact h5

theorem normalizeTitle_length_le (index : Nat) (s : List Char) :
    (normalizeTitle index s).length ≤ 200 := by
  have h3 : (truncated (titledOrSynthetic index (cleanedTitle s))).length ≤ 200 := by
    rcases @truncated_length_le
        (titledOrSynthetic index (cleanedTitle s)) with h | ⟨he, hl⟩
    · exact h
    · rw [he]; exact hl
  have h5 : (strippedTitle (truncated (titledOrSynthetic index
      (cleanedTitle s)))).length ≤ 200 :=
    le_trans (strippedTitle_length_le _) h3
  rw [normalizeTitle]
  split
  · next hres =>
    have h45 := reservedTest_length_le hres
    rw [List.length_append]
    have h8 : ("_chapter".data).length = 8 := rfl
    omega
  · exact h5

theorem normalizeTitle_not_reserved (index : Nat) (s : List Char) :
    reservedTest (normalizeTitle index s) = false := by
  rw [normalizeTitle]
  split
  · refine reservedTest_false_of_length ?_
    rw [List.length_append]
    have h8 : ("_chapter".data).length = 8 := rfl
    omega
  · next hres => simpa using hres

/-- A non-empty normalised title neither starts nor ends with a dot or
whitespace. -/
theorem normalizeTitle_edges (index : Nat) (s : List Char)
    (h : normalizeTitle index s ≠ []) :
    (∀ c ∈ (normalizeTitle index s).head?, dotOrWs c = false) ∧
    (∀ c ∈ (normalizeTitle index s).getLast?, dotOrWs c = false) := by
  rw [normalizeTitle] at h ⊢
  by_cases hres : reservedTest (strippedTitle (truncated (titledOrSynthetic index
      (cleanedTitle s)))) = true
  · rw [if_pos hres] at h ⊢
    have h5ne : strippedTitle (truncated (titledOrSynthetic index
        (cleanedTitle s))) ≠ [] := by
      intro he
      rw [he] at hres
      exact absurd hres (by decide)
    have hedge := strippedTitle_edges _ h5ne
    constructor
    · intro c hc
      rw [List.head?_append] at hc
      cases hh : (strippedTitle (truncated (titledOrSynthetic index
          (cleanedTitle s)))).head? with
      | none =>
        rw [List.head?_eq_none_iff] at hh
        exact absurd hh h5ne
      | some d =>
        rw [hh] at hc
        simp only [Option.or_some, Option.mem_def, Option.some.injEq] at hc
        rw [← hc]
        exact hedge.1 d (by rw [hh]; rfl)
    · intro c hc
      rw [List.getLast?_append] at hc
      have hlast : ("_chapter".data).getLast? = some 'r' := rfl
      rw [hlast] at hc
      simp only [Option.or_some, Option.mem_def, Option.some.injEq] at hc
      rw [← hc]
      decide
  · rw [if_neg hres] at h ⊢
    exact strippedTitle_edges _ h

/-- For a non-empty output, `normalizeTitle` is a fixed point of itself. -/
theorem normalizeTitle_idem (index : Nat) (s : List Char)
    (h : normalizeTitle index s ≠ []) :
    normalizeTitle index (normalizeTitle index s) = normalizeTitle index s := by
  have hforb := normalizeTitle_not_forbidden index s
  have hsn := normalizeTitle_spaceNormal index s
  have hedge := normalizeTitle_edges index s h
  have hlen := normalizeTitle_length_le index s
  have hres := normalizeTitle_not_reserved index s
  have hfilter : (normalizeTitle index s).filter (fun c => !forbiddenChar c) =
      normalizeTitle index s :=
    List.filter_eq_self.mpr (fun c hc => by rw [hforb c hc]; rfl)
  have hcoll : collapseWs (normalizeTitle index s) = normalizeTitle index s :=
    collapseWs_eq_self hsn
  have hnotws_head : ∀ c ∈ (normalizeTitle index s).head?, jsWhitespace c = false :=
    fun c hc => dotOrWs_false_not_ws (hedge.1 c hc)
  have hnotws_last : ∀ c ∈ (normalizeTitle index s).getLast?, jsWhitespace c = false :=
    fun c hc => dotOrWs_false_not_ws (hedge.2 c hc)
  have htrim : trimJs (normalizeTitle index s) = normalizeTitle index s := by
    rw [trimJs, dropWhile_eq_self_of_head _ _ hnotws_head,
      dropTrailing_eq_self_of_getLast _ _ hnotws_last]
  have hclean : cleanedTitle (normalizeTitle index s) = normalizeTitle index s := by
    rw [cleanedTitle, hfilter, hcoll, htrim]
  have hsynth : titledOrSynthetic index (cleanedTitle (normalizeTitle index s)) =
      normalizeTitle index s := by
    rw [hclean, titledOrSynthetic, if_neg (by simpa [List.isEmpty_iff] using h)]
  have htrunc : truncated (titledOrSynthetic index
      (cleanedTitle (normalizeTitle index s))) = normalizeTitle index s := by
    rw [hsynth, truncated, if_neg (by omega)]
  have hstrip : strippedTitle (truncated (titledOrSynthetic index
      (cleanedTitle (normalizeTitle index s)))) = normalizeTitle index s := by
    rw [htrunc, strippedTitle, stripEdgeDots,
      dropWhile_eq_self_of_head _ _ (fun c hc => hedge.1 c hc),
      dropTrailing_eq_self_of_getLast _ _ (fun c hc => hedge.2 c hc),
      stripTrailDots,
      dropTrailing_eq_self_of_getLast _ _ (fun c hc => hedge.2 c hc)]
  conv_lhs => rw [normalizeTitle]
  rw [hstrip, if_neg (by simp [hres])]

set_option maxRecDepth 4000 in
/-- **C6 counterexample** — For the single chapter whose title is 201 dots,
the cleaned title is non-empty (so no synthetic title is substituted) and is
truncated to 197 dots plus the ellipsis, after which the trailing-dot
stripping removes everything: the returned title is empty (hence neither
non-empty nor carrying an ellipsis marker). -/
theorem normalizeChapterTitles_empty_title_cex :
    (normalizeChapterTitles [⟨List.replicate 201 '.', 1000, 0⟩]).map
      (fun c => c.title) = [[]] := by decide

/-- **C6 (amended)** — Every title returned by `normalizeChapterTitles` has
length at most 200 and never equals a reserved device name case-insensitively
(collisions are suffixed with `_chapter`).  The synthetic `Chapter N` title is
substituted when the cleaned title is empty, but the later dot/space stripping
can still return an empty title (e.g. a title of only dots) and removes the
ellipsis appended at truncation. -/
theorem normalizeChapterTitles_titles_bounded (chapters : List ChapterInfo) :
    ∀ c ∈ normalizeChapterTitles chapters,
      c.title.length ≤ 200 ∧ reservedTest c.title = false := by
  intro c hc
  rw [normalizeChapterTitles, List.mapIdx_eq_enum_map, List.mem_map] at hc
  obtain ⟨⟨i, a⟩, hmem, rfl⟩ := hc
  dsimp only [Function.uncurry]
  exact ⟨normalizeTitle_length_le i a.title, normalizeTitle_not_reserved i a.title⟩

/-- Witness for C6 (amended) at a concrete chapter list. -/
theorem normalizeChapterTitles_titles_bounded_witness :
    (⟨"Intro".data, 60000, 0⟩ : ChapterInfo) ∈
        normalizeChapterTitles [⟨"Intro".data, 60000, 0⟩] ∧
      (("Intro".data : List Char).length ≤ 200 ∧
       reservedTest ("Intro".data : List Char) = false) :=
  ⟨by decide, normalizeChapterTitles_titles_bounded
    [⟨"Intro".data, 60000, 0⟩] ⟨"Intro".data, 60000, 0⟩ (by decide)⟩

/-- **C5 counterexample** — `normalizeChapterTitles` is not idempotent: the
title `"."` normalises to the empty title on the first pass (the trailing-dot
stripping empties it after the synthetic-title check already passed), and on
the second pass the now-empty title is replaced by `Chapter 1`. -/
theorem normalizeChapterTitles_not_idempotent :
    normalizeChapterTitles (normalizeChapterTitles [⟨".".data, 1000, 0⟩]) ≠
      normalizeChapterTitles [⟨".".data, 1000, 0⟩] := by decide

/-- **C5 (amended)** — `normalizeChapterTitles` is idempotent on every chapter
list for which one application produces no empty title. -/
theorem normalizeChapterTitles_idem_of_titles_nonempty (chapters : List ChapterInfo)
    (h : ∀ c ∈ normalizeChapterTitles chapters, c.title ≠ []) :
    normalizeChapterTitles (normalizeChapterTitles chapters) =
      normalizeChapterTitles chapters := by
  apply List.ext_getElem
  · rw [length_normalizeChapterTitles]
  · intro n h1 h2
    have hmem : (normalizeChapterTitles chapters)[n] ∈
        normalizeChapterTitles chapters := List.getElem_mem h2
    have hne := h _ hmem
    unfold normalizeChapterTitles at h1 h2 hne ⊢
    rw [List.getElem_mapIdx] at hne
    simp only [List.getElem_mapIdx]
    dsimp only at hne ⊢
    rw [normalizeTitle_idem n _ hne]

/-- Witness for C5 (amended) at a concrete chapter list with a non-empty
normalised title. -/
theorem normalizeChapterTitles_idem_witness :
    normalizeChapterTitles (normalizeChapterTitles [⟨"My Chapter".data, 60000, 0⟩]) =
      normalizeChapterTitles [⟨"My Chapter".data, 60000, 0⟩] :=
  normalizeChapterTitles_idem_of_titles_nonempty
    [⟨"My Chapter".data, 60000, 0⟩] (by decide)

/-! ### `sanitizeFilename` safety (C7) -/

theorem mem_trimJs {s : List Char} {c : Char} (h : c ∈ trimJs s) : c ∈ s := by
  rw [trimJs] at h
  exact mem_dropWhile (mem_dropTrailing h)

theorem mem_stripEdgeDots {s : List Char} {c : Char} (h : c ∈ stripEdgeDots s) :
    c ∈ s := by
  rw [stripEdgeDots] at h
  exact mem_dropWhile (mem_dropTrailing h)

theorem mem_stripTrailDots {s : List Char} {c : Char} (h : c ∈ stripTrailDots s) :
    c ∈ s := by
  rw [stripTrailDots] at h
  exact mem_dropTrailing h

theorem cleanedFilename_safe (filename : List Char) :
    ∀ c ∈ cleanedFilename filename,
      forbiddenChar c = false ∧ controlChar c = false := by
  intro c hc
  rw [cleanedFilename] at hc
  rcases mem_collapseWsAux (mem_trimJs hc) with h3 | h3
  · rw [List.mem_filter] at h3
    have h4 := h3.2
    rw [List.mem_filter] at h3
    exact ⟨by simpa using h3.1.2, by simpa using h4⟩
  · rw [h3]; exact ⟨by decide, by decide⟩

theorem reservedSuffixed_safe {s1 : List Char}
    (h : ∀ c ∈ s1, forbiddenChar c = false ∧ controlChar c = false) :
    ∀ c ∈ reservedSuffixed s1,
      forbiddenChar c = false ∧ controlChar c = false := by
  intro c hc
  rw [reservedSuffixed] at hc
  split at hc
  · rcases List.mem_append.1 hc with h1 | h1
    · exact h c h1
    · have hf : ∀ d ∈ "_file".data,
          forbiddenChar d = false ∧ controlChar d = false := by decide
      exact hf c h1
  · exact h c hc

theorem presanitized_safe (filename : List Char) :
    ∀ c ∈ presanitized filename, forbiddenChar c = false ∧ controlChar c = false := by
  intro c hc
  rw [presanitized] at hc
  split at hc
  · have h : ∀ d ∈ "unnamed".data,
        forbiddenChar d = false ∧ controlChar d = false := by decide
    exact h c hc
  · exact reservedSuffixed_safe (cleanedFilename_safe filename) c
      (mem_stripEdgeDots (mem_stripTrailDots hc))

/-- **C7 counterexample** — `sanitizeFilename("a.bcdef", 5)` returns
`".bcdef"`, of length 6 > 5: when the extension plus the 10-character
collision reserve exceeds `maxLength`, the base name truncates to empty but
the extension is kept whole, so the bound fails. -/
theorem sanitizeFilename_length_cex :
    ¬((sanitizeFilename "a.bcdef".data 5).length ≤ 5) := by decide

/-- **C7 (amended)** — `sanitizeFilename(name, n)` always returns a string
free of the forbidden characters and of control characters; its length is at
most `max n e` where `e` is the length of the retained extension (the part
from the last interior dot of the cleaned name), and in particular at most
`n` whenever the extension plus the 10-character collision reserve fits in
`n`. -/
theorem sanitizeFilename_safe (filename : List Char) (n : Nat) :
    (∀ c ∈ sanitizeFilename filename n,
        forbiddenChar c = false ∧ controlChar c = false) ∧
    (sanitizeFilename filename n).length ≤
      max n ((splitExt (presanitized filename)).2.length) ∧
    ((splitExt (presanitized filename)).2.length + 10 ≤ n →
      (sanitizeFilename filename n).length ≤ n) := by
  have hsplit : (splitExt (presanitized filename)).1 ++
      (splitExt (presanitized filename)).2 = presanitized filename := by
    rw [splitExt]
    cases lastIndexOfDot (presanitized filename) with
    | none => simp
    | some li =>
      dsimp only
      split
      · exact List.take_append_drop li (presanitized filename)
      · simp
  refine ⟨?_, ?_⟩
  · intro c hc
    rw [sanitizeFilename] at hc
    rcases List.mem_append.1 hc with h1 | h1
    · have hbase : c ∈ (splitExt (presanitized filename)).1 := by
        revert h1
        split
        · intro h1
          exact List.mem_of_mem_take (mem_dropWhile (mem_dropTrailing h1))
        · intro h1
          exact h1
      refine presanitized_safe filename c ?_
      rw [← hsplit]
      exact List.mem_append_left _ hbase
    · refine presanitized_safe filename c ?_
      rw [← hsplit]
      exact List.mem_append_right _ h1
  · rw [sanitizeFilename]
    set base := (splitExt (presanitized filename)).1 with hbase
    set ext := (splitExt (presanitized filename)).2 with hext
    set maxBase : Int := (n : Int) - ext.length - 10 with hmb
    constructor
    · split
      · next hbig =>
        have hlen : (trimJs (base.take maxBase.toNat)).length ≤ maxBase.toNat :=
          le_trans (length_trimJs_le _) (by rw [List.length_take]; omega)
        rw [List.length_append]
        rcases le_or_lt 0 maxBase with hge | hlt
        · have : (maxBase.toNat : Int) = maxBase := Int.toNat_of_nonneg hge
          omega
        · have : maxBase.toNat = 0 := by omega
          omega
      · next hsmall =>
        rw [List.length_append]
        have : (base.length : Int) ≤ maxBase := by omega
        omega
    · intro hfit
      have hge : 0 ≤ maxBase := by omega
      split
      · next hbig =>
        have hlen : (trimJs (base.take maxBase.toNat)).length ≤ maxBase.toNat :=
          le_trans (length_trimJs_le _) (by rw [List.length_take]; omega)
        rw [List.length_append]
        have : (maxBase.toNat : Int) = maxBase := Int.toNat_of_nonneg hge
        omega
      · next hsmall =>
        rw [List.length_append]
        have : (base.length : Int) ≤ maxBase := by omega
        omega

/-- Witness for C7 (amended): a name whose extension fits in the budget obeys
the length bound. -/
theorem sanitizeFilename_safe_witness :
    (sanitizeFilename "My Book: Chapter 1?.mp3".data 200).length ≤ 200 :=
  (sanitizeFilename_safe "My Book: Chapter 1?.mp3".data 200).2.2 (by decide)

/-! ### Splitter lemmas (C2, C3, C8) -/

theorem diskCheck_fail_errors_ne (env : PrepEnv) (config : ChapterSplitConfig)
    (effs : List Effect) :
    (diskCheck env config effs).1 = false → (diskCheck env config effs).2.1 ≠ [] := by
  rw [diskCheck]
  rcases env.diskSpace with _ | avail
  · simp
  · dsimp only
    split <;> simp

theorem diskCheck_effects (env : PrepEnv) (config : ChapterSplitConfig)
    (effs : List Effect) : (diskCheck env config effs).2.2 = effs := by
  rw [diskCheck]
  rcases env.diskSpace with _ | avail
  · simp
  · dsimp only
    split <;> simp

theorem diskCheck_fst_snd_indep (env : PrepEnv) (config : ChapterSplitConfig)
    (effs effs2 : List Effect) :
    (diskCheck env config effs).1 = (diskCheck env config effs2).1 ∧
    (diskCheck env config effs).2.1 = (diskCheck env config effs2).2.1 := by
  rw [diskCheck, diskCheck]
  rcases env.diskSpace with _ | avail
  · simp
  · dsimp only
    split <;> simp

theorem prepare_fail_errors_ne (env : PrepEnv) (config : ChapterSplitConfig)
    (options : SplitOptions) :
    (prepareSplitOperation env config options).1 = false →
    (prepareSplitOperation env config options).2.1 ≠ [] := by
  rw [prepareSplitOperation]
  split
  · simp
  · split
    · simp
    · dsimp only
      split
      · next hval =>
        intro _
        have hiv := validateChapters_isValid_eq config.chapters (some env.audioDuration)
        simp only [Bool.not_eq_true'] at hval
        rw [hval] at hiv
        intro hmap
        rw [List.map_eq_nil_iff] at hmap
        rw [hmap] at hiv
        simp at hiv
      · split
        · exact diskCheck_fail_errors_ne env config []
        · split
          · simp
          · exact diskCheck_fail_errors_ne env config _

/-- **C2** — Every `SplitResult` returned by `splitAudioByChapters` — whether
preflight fails, a chapter fails, a fatal error is caught, or all chapters
succeed — has `success = true` exactly when its error list is empty and
`processedChapters` equals `totalChapters`. -/
theorem splitResult_success_iff (env : SplitEnv) (config : ChapterSplitConfig)
    (options : SplitOptions) :
    ((splitAudioByChapters env config options).1.success = true) ↔
      ((splitAudioByChapters env config options).1.errors = [] ∧
       (splitAudioByChapters env config options).1.processedChapters =
         (splitAudioByChapters env config options).1.totalChapters) := by
  rw [splitAudioByChapters]
  rcases env.fatal with _ | f
  · dsimp only
    split
    · next hprep =>
      have hne := prepare_fail_errors_ne env.prep config options
        (by simpa using hprep)
      simp [hne]
    · simp [List.isEmpty_iff]
  · simp

/-- The batch accumulator splits off its initial state. -/
theorem runChapters_shift (env : SplitEnv) (options : SplitOptions)
    (config : ChapterSplitConfig) :
    ∀ (l : List ChapterInfo) (num : Nat) (st : BatchState),
    runChapters env options config num l st =
      ⟨st.files ++ (runChapters env options config num l ⟨[], [], 0, []⟩).files,
       st.errors ++ (runChapters env options config num l ⟨[], [], 0, []⟩).errors,
       st.processed + (runChapters env options config num l ⟨[], [], 0, []⟩).processed,
       st.effects ++ (runChapters env options config num l ⟨[], [], 0, []⟩).effects⟩ := by
  intro l
  induction l with
  | nil => intro num st; simp [runChapters]
  | cons c rest ih =>
    intro num st
    rw [runChapters, runChapters]
    cases h : processChapterSplit env options config (num + 1) c with
    | ok v =>
      obtain ⟨cf, eff⟩ := v
      dsimp only
      rw [ih (num + 1)
          ⟨st.files ++ [cf], st.errors, st.processed + 1, st.effects ++ eff⟩]
      simp only [List.nil_append, Nat.zero_add]
      rw [ih (num + 1) ⟨[cf], [], 1, eff⟩]
      simp [List.append_assoc]
      omega
    | error e =>
      dsimp only
      rw [ih (num + 1)
          ⟨st.files, st.errors ++ [ErrMsg.chapter (num + 1) e], st.processed, st.effects⟩]
      simp only [List.nil_append, Nat.zero_add]
      rw [ih (num + 1) ⟨[], [ErrMsg.chapter (num + 1) e], 0, []⟩]
      simp [List.append_assoc]

theorem runChapters_append (env : SplitEnv) (options : SplitOptions)
    (config : ChapterSplitConfig) :
    ∀ (l1 l2 : List ChapterInfo) (num : Nat) (st : BatchState),
    runChapters env options config num (l1 ++ l2) st =
      runChapters env options config (num + l1.length) l2
        (runChapters env options config num l1 st) := by
  intro l1
  induction l1 with
  | nil => intro l2 num st; simp [runChapters]
  | cons c rest ih =>
    intro l2 num st
    rw [List.cons_append, runChapters, runChapters, ih]
    have : num + (c :: rest).length = num + 1 + rest.length := by
      simp; omega
    rw [this]

/-- The batch loop is equivalent to processing all chapters strictly in
order: `Promise.allSettled` settles every chapter of a batch and the
`forEach` accounting consumes them in batch order. -/
theorem runBatches_eq_runChapters (env : SplitEnv) (options : SplitOptions)
    (config : ChapterSplitConfig) (conc : Nat) :
    ∀ (l : List ChapterInfo) (num : Nat) (st : BatchState),
    runBatches env options config conc num l st =
      runChapters env options config num l st := by
  have H : ∀ (n : Nat) (l : List ChapterInfo), l.length ≤ n →
      ∀ (num : Nat) (st : BatchState),
      runBatches env options config conc num l st =
        runChapters env options config num l st := by
    intro n
    induction n with
    | zero =>
      intro l hl num st
      have : l = [] := List.length_eq_zero.mp (by omega)
      subst this
      rw [runBatches, runChapters]
    | succ n ihn =>
      intro l hl num st
      cases l with
      | nil => rw [runBatches, runChapters]
      | cons c rest =>
        rw [runBatches]
        rw [ihn (rest.drop (conc - 1))
          (by rw [List.length_drop]; simp only [List.length_cons] at hl; omega)]
        conv_rhs =>
          rw [show c :: rest =
            (c :: rest.take (conc - 1)) ++ rest.drop (conc - 1) by
              rw [List.cons_append, List.take_append_drop]]
        rw [runChapters_append]
  intro l
  exact H l.length l le_rfl

/-- A fulfilled chapter resolves with its expected `ChapterFile`. -/
theorem processChapterSplit_ok (env : SplitEnv) (options : SplitOptions)
    (config : ChapterSplitConfig) (n : Nat) (c : ChapterInfo)
    (h : fulfills env options n) :
    ∃ eff, processChapterSplit env options config n c =
      .ok (expectedFile config n c, eff) := by
  rw [processChapterSplit]
  split
  · exact ⟨[], rfl⟩
  · next hskip =>
    split
    · exact ⟨[], rfl⟩
    · next hdry =>
      have hcut : env.cutError n = none := by
        rcases h with ⟨ho, hf, hdf⟩ | hdt | hcut
        · exact absurd (by simp [ho, hf, hdf]) hskip
        · exact absurd hdt hdry
        · exact hcut
      rw [hcut]
      exact ⟨_, rfl⟩

/-- A chapter that is not skipped and whose cut throws rejects with the
wrapped error. -/
theorem processChapterSplit_error (env : SplitEnv) (options : SplitOptions)
    (config : ChapterSplitConfig) (n : Nat) (c : ChapterInfo) (r : List Char)
    (hskip : env.fileExists n = false) (hd : options.dryRun = false)
    (hcut : env.cutError n = some r) :
    processChapterSplit env options config n c =
      .error (.failedToProcess n r) := by
  rw [processChapterSplit, if_neg (by simp [hskip]), if_neg (by simp [hd]), hcut]

/-- Running a stretch of chapters that all resolve: no errors, every chapter
counted, every expected file collected. -/
theorem runChapters_all_ok (env : SplitEnv) (options : SplitOptions)
    (config : ChapterSplitConfig) :
    ∀ (l : List ChapterInfo) (num : Nat) (st : BatchState),
    (∀ j, j < l.length → fulfills env options (num + j + 1)) →
    (runChapters env options config num l st).errors = st.errors ∧
    (runChapters env options config num l st).processed = st.processed + l.length ∧
    (∀ j, j < l.length →
      expectedFile config (num + j + 1) (l.getD j default) ∈
        (runChapters env options config num l st).files) := by
  intro l
  induction l with
  | nil =>
    intro num st _
    refine ⟨rfl, by simp [runChapters], ?_⟩
    intro j hj
    simp at hj
  | cons c rest ih =>
    intro num st hful
    obtain ⟨eff, hok⟩ := processChapterSplit_ok env options config (num + 1) c
      (by have := hful 0 (by simp); simpa using this)
    rw [runChapters, hok]
    dsimp only
    have ihr := ih (num + 1)
      ⟨st.files ++ [expectedFile config (num + 1) c], st.errors,
       st.processed + 1, st.effects ++ eff⟩
      (fun j hj => by
        have := hful (j + 1) (by simp; omega)
        have harith : num + (j + 1) + 1 = num + 1 + j + 1 := by omega
        rwa [harith] at this)
    refine ⟨ihr.1, ?_, ?_⟩
    · rw [ihr.2.1]
      simp
      omega
    · intro j hj
      cases j with
      | zero =>
        simp only [List.getD_cons_zero, Nat.add_zero]
        rw [runChapters_shift]
        dsimp only
        exact List.mem_append_left _ (List.mem_append_right _ (by simp))
      | succ j =>
        have := ihr.2.2 j (by simpa using hj)
        have harith : num + 1 + j + 1 = num + (j + 1) + 1 := by omega
        rw [harith] at this
        simpa using this

/-- Running a stretch in which exactly one chapter (number `k`, not skipped,
cut throws) rejects while every other chapter resolves: exactly one error,
every other chapter counted and its expected file collected. -/
theorem runChapters_one_fail (env : SplitEnv) (options : SplitOptions)
    (config : ChapterSplitConfig) (r : List Char)
    (hd : options.dryRun = false) (hnoskip : ∀ n, env.fileExists n = false) :
    ∀ (l : List ChapterInfo) (num k : Nat) (st : BatchState),
    num < k → k ≤ num + l.length →
    (∀ j, j < l.length → num + j + 1 ≠ k → fulfills env options (num + j + 1)) →
    env.cutError k = some r →
    (runChapters env options config num l st).errors =
      st.errors ++ [.chapter k (.failedToProcess k r)] ∧
    (runChapters env options config num l st).processed =
      st.processed + l.length - 1 ∧
    (∀ j, j < l.length → num + j + 1 ≠ k →
      expectedFile config (num + j + 1) (l.getD j default) ∈
        (runChapters env options config num l st).files) := by
  intro l
  induction l with
  | nil =>
    intro num k st hk1 hk2 _ _
    simp only [List.length_nil] at hk2
    omega
  | cons c rest ih =>
    intro num k st hk1 hk2 hful hcut
    by_cases hk0 : num + 1 = k
    · -- the head chapter is the failing one
      have herr := processChapterSplit_error env options config (num + 1) c r
        (hnoskip _) hd (by rw [hk0]; exact hcut)
      rw [runChapters, herr]
      dsimp only
      have hall := runChapters_all_ok env options config rest (num + 1)
        ⟨st.files, st.errors ++ [ErrMsg.chapter (num + 1)
          (ChapterErr.failedToProcess (num + 1) r)], st.processed, st.effects⟩
        (fun j hj => by
          have := hful (j + 1) (by simp; omega) (by omega)
          have harith : num + (j + 1) + 1 = num + 1 + j + 1 := by omega
          rwa [harith] at this)
      refine ⟨?_, ?_, ?_⟩
      · rw [hall.1, hk0]
      · rw [hall.2.1]
        simp
      · intro j hj hne
        cases j with
        | zero => exact absurd (by omega) hne
        | succ j =>
          have := hall.2.2 j (by simpa using hj)
          have harith : num + 1 + j + 1 = num + (j + 1) + 1 := by omega
          rw [harith] at this
          simpa using this
    · -- the head chapter resolves; the failure is further on
      obtain ⟨eff, hok⟩ := processChapterSplit_ok env options config (num + 1) c
        (by
          have := hful 0 (by simp) (by omega)
          simpa using this)
      rw [runChapters, hok]
      dsimp only
      have ihr := ih (num + 1) k
        ⟨st.files ++ [expectedFile config (num + 1) c], st.errors,
         st.processed + 1, st.effects ++ eff⟩
        (by omega) (by simp at hk2 ⊢; omega)
        (fun j hj hne => by
          have := hful (j + 1) (by simp; omega) (by omega)
          have harith : num + (j + 1) + 1 = num + 1 + j + 1 := by omega
          rwa [harith] at this)
        hcut
      refine ⟨?_, ?_, ?_⟩
      · rw [ihr.1]
      · rw [ihr.2.1]
        simp
      · intro j hj hne
        cases j with
        | zero =>
          simp only [List.getD_cons_zero, Nat.add_zero]
          rw [runChapters_shift]
          dsimp only
          exact List.mem_append_left _ (List.mem_append_right _ (by simp))
        | succ j =>
          have := ihr.2.2 j (by simpa using hj) (by omega)
          have harith : num + 1 + j + 1 = num + (j + 1) + 1 := by omega
          rw [harith] at this
          simpa using this

/-- **C3** — If during EXECUTE exactly one chapter's cut throws (chapter `k`,
with no pre-existing outputs to skip and no dry run) while preflight passed,
`splitAudioByChapters` still processes every other chapter in that batch and
in later batches: `success = false`, `processedChapters = totalChapters - 1`,
the error list has exactly one entry referencing chapter `k`, and every other
chapter's expected output path appears in `outputFiles`. -/
theorem splitAudioByChapters_single_failure
    (env : SplitEnv) (config : ChapterSplitConfig) (options : SplitOptions)
    (k : Nat) (r : List Char)
    (hfatal : env.fatal = none)
    (hprep : (prepareSplitOperation env.prep config options).1 = true)
    (hdry : options.dryRun = false)
    (hk1 : 1 ≤ k) (hk2 : k ≤ config.chapters.length)
    (hnoskip : ∀ n, env.fileExists n = false)
    (hothers : ∀ n, n ≠ k → env.cutError n = none)
    (hfail : env.cutError k = some r) :
    (splitAudioByChapters env config options).1.success = false ∧
    (splitAudioByChapters env config options).1.processedChapters =
      config.chapters.length - 1 ∧
    (splitAudioByChapters env config options).1.errors =
      [.chapter k (.failedToProcess k r)] ∧
    (∀ n, 1 ≤ n → n ≤ config.chapters.length → n ≠ k →
      joinPath config.outputDir
        (generateChapterFileName config.bookTitle n
          ((normalizeChapterTitles (sortChaptersByStartTime config.chapters)).getD
            (n - 1) default).title config.format) ∈
        (splitAudioByChapters env config options).1.outputFiles) := by
  have hlen : (normalizeChapterTitles (sortChaptersByStartTime config.chapters)).length
      = config.chapters.length := by
    rw [length_normalizeChapterTitles, length_sortChaptersByStartTime]
  have hone := runChapters_one_fail env options config r hdry hnoskip
    (normalizeChapterTitles (sortChaptersByStartTime config.chapters)) 0 k
    ⟨[], [], 0, []⟩ (by omega) (by rw [hlen]; omega)
    (fun j hj hne => Or.inr (Or.inr (hothers _ hne)))
    hfail
  rw [splitAudioByChapters, hfatal]
  dsimp only
  rw [if_neg (by simp [hprep]), runBatches_eq_runChapters]
  refine ⟨?_, ?_, ?_, ?_⟩
  · dsimp only
    rw [hone.1]
    simp
  · dsimp only
    rw [hone.2.1]
    simp [hlen]
  · dsimp only
    rw [hone.1]
    simp
  · intro n hn1 hn2 hne
    dsimp only
    have hj := hone.2.2 (n - 1) (by rw [hlen]; omega) (by omega)
    have harith : 0 + (n - 1) + 1 = n := by omega
    rw [harith] at hj
    exact List.mem_map_of_mem _ hj

/-- Witness for C3: five valid chapters, chapter 3's cut throws, concurrency
2 — four chapters processed with exactly one error entry for chapter 3. -/
theorem splitAudioByChapters_single_failure_witness :
    (splitAudioByChapters sampleEnv sampleConfig sampleOptions).1.processedChapters = 4 ∧
    (splitAudioByChapters sampleEnv sampleConfig sampleOptions).1.errors =
      [.chapter 3 (.failedToProcess 3 "boom".data)] := by
  have h := splitAudioByChapters_single_failure sampleEnv sampleConfig sampleOptions
    3 "boom".data rfl (by decide) rfl (by decide) (by decide)
    (fun n => rfl) (fun n hn => by simp only [sampleEnv]; simp [hn]) rfl
  exact ⟨h.2.1, h.2.2.1⟩

/-- In a dry run every chapter resolves with its would-be output path and no
write is performed. -/
theorem processChapterSplit_dryRun (env : SplitEnv) (options : SplitOptions)
    (config : ChapterSplitConfig) (n : Nat) (c : ChapterInfo)
    (hd : options.dryRun = true) :
    processChapterSplit env options config n c =
      .ok (expectedFile config n c, []) := by
  rw [processChapterSplit, if_neg (by simp [hd]), if_pos hd]
  rfl

theorem runChapters_dryRun (env : SplitEnv) (options : SplitOptions)
    (config : ChapterSplitConfig) (hd : options.dryRun = true) :
    ∀ (l : List ChapterInfo) (num : Nat) (st : BatchState),
    runChapters env options config num l st =
      ⟨st.files ++ l.mapIdx (fun j c => expectedFile config (num + j + 1) c),
       st.errors, st.processed + l.length, st.effects⟩ := by
  intro l
  induction l with
  | nil => intro num st; simp [runChapters]
  | cons c rest ih =>
    intro num st
    rw [runChapters, processChapterSplit_dryRun env options config _ c hd]
    dsimp only
    rw [ih (num + 1) ⟨st.files ++ [expectedFile config (num + 1) c], st.errors,
      st.processed + 1, st.effects ++ []⟩]
    have hfun : (fun j c2 => expectedFile config (num + 1 + j + 1) c2) =
        (fun (j : Nat) c2 => expectedFile config (num + (j + 1) + 1) c2) := by
      funext j c2
      congr 1
      omega
    rw [List.mapIdx_cons]
    dsimp only
    rw [hfun]
    simp [List.append_assoc]
    omega

theorem prepareSplitOperation_dryRun_effects (env : PrepEnv)
    (config : ChapterSplitConfig) (options : SplitOptions)
    (hd : options.dryRun = true) :
    (prepareSplitOperation env config options).2.2 = [] := by
  rw [prepareSplitOperation]
  split
  · rfl
  · split
    · rfl
    · dsimp only
      split
      · rfl
      · exact diskCheck_effects env config []

theorem prepareSplitOperation_dry_eq (env : PrepEnv) (config : ChapterSplitConfig)
    (options : SplitOptions) (hmk : env.mkdirError = none) :
    (prepareSplitOperation env config { options with dryRun := false }).1 =
      (prepareSplitOperation env config options).1 ∧
    (prepareSplitOperation env config { options with dryRun := false }).2.1 =
      (prepareSplitOperation env config options).2.1 := by
  rw [prepareSplitOperation, prepareSplitOperation]
  split
  · simp
  · split
    · simp
    · dsimp only
      split
      · simp
      · rw [hmk]
        rcases hdo : options.dryRun
        · exact ⟨rfl, rfl⟩
        · dsimp only
          exact diskCheck_fst_snd_indep env config _ _

theorem map_mapIdx {α β γ : Type} (l : List α) (f : Nat → α → β) (g : β → γ) :
    (l.mapIdx f).map g = l.mapIdx (fun i a => g (f i a)) := by
  simp [List.mapIdx_eq_enum_map, List.map_map, Function.comp_def, Function.uncurry]

/-- **C8** — For a dry-run job whose preflight passes, `splitAudioByChapters`
performs no filesystem writes (no directory creation, no cuts), still returns
`processedChapters = totalChapters` with one would-be output path per chapter
in canonical order, and the preflight outcome (success flag and errors) is the
same as for a non-dry run whenever directory creation would succeed — i.e.
validation and disk checks still run. -/
theorem splitAudioByChapters_dryRun
    (env : SplitEnv) (config : ChapterSplitConfig) (options : SplitOptions)
    (hfatal : env.fatal = none)
    (hdry : options.dryRun = true)
    (hprep : (prepareSplitOperation env.prep config options).1 = true) :
    (splitAudioByChapters env config options).2 = [] ∧
    (splitAudioByChapters env config options).1.processedChapters =
      config.chapters.length ∧
    (splitAudioByChapters env config options).1.errors = [] ∧
    (splitAudioByChapters env config options).1.success = true ∧
    (splitAudioByChapters env config options).1.outputFiles =
      (normalizeChapterTitles (sortChaptersByStartTime config.chapters)).mapIdx
        (fun j c => joinPath config.outputDir
          (generateChapterFileName config.bookTitle (j + 1) c.title config.format)) ∧
    (env.prep.mkdirError = none →
      (prepareSplitOperation env.prep config { options with dryRun := false }).1 =
        (prepareSplitOperation env.prep config options).1 ∧
      (prepareSplitOperation env.prep config { options with dryRun := false }).2.1 =
        (prepareSplitOperation env.prep config options).2.1) := by
  have hlen : (normalizeChapterTitles (sortChaptersByStartTime config.chapters)).length
      = config.chapters.length := by
    rw [length_normalizeChapterTitles, length_sortChaptersByStartTime]
  rw [splitAudioByChapters, hfatal]
  dsimp only
  rw [if_neg (by simp [hprep]), runBatches_eq_runChapters,
    runChapters_dryRun env options config hdry
      (normalizeChapterTitles (sortChaptersByStartTime config.chapters)) 0
      ⟨[], [], 0, []⟩]
  refine ⟨?_, ?_, ?_, ?_, ?_, ?_⟩
  · dsimp only
    rw [prepareSplitOperation_dryRun_effects env.prep config options hdry]
    rfl
  · dsimp only
    rw [hlen]
    omega
  · rfl
  · dsimp only
    simp [hlen]
  · dsimp only
    rw [List.nil_append, map_mapIdx]
    simp [expectedFile]
  · exact fun hmk => prepareSplitOperation_dry_eq env.prep config options hmk

/-- Witness for C8: a dry run over the five sample chapters performs no
writes and reports all five chapters processed. -/
theorem splitAudioByChapters_dryRun_witness :
    (splitAudioByChapters sampleEnv sampleConfig sampleOptionsDry).2 = [] ∧
    (splitAudioByChapters sampleEnv sampleConfig sampleOptionsDry).1.processedChapters
      = 5 := by
  have h := splitAudioByChapters_dryRun sampleEnv sampleConfig sampleOptionsDry
    rfl rfl (by decide)
  exact ⟨h.1, h.2.1⟩

end Upoko
